/-
  Verification of the combinatorial mapping-space encoder of the timeloop
  repository (src/src/cnn/cnn-layers.cpp and the mapspace header appended to
  it): the Index Factorization Space, the Permutation Space, the Spatial
  Split Space, and the named-workload bounds lookup.

  The helper components `Factors`, `CartesianCounterDynamic` and
  `Factoradic` live in util/numeric.hpp, which is not part of the sources
  here; those definitions are modelled from the specification (sections 4.1,
  4.2, 4.3) and are marked as such in their doc comments.  Everything else
  is translated directly from the C++ sources.
-/
import Mathlib

set_option maxRecDepth 4000

/-- The seven problem dimensions R,S,P,Q,C,K,N (problem::NumDimensions). -/
abbrev NumDimensions : Nat := 7

/-- A problem dimension (problem::Dimension), one of the 7 enumerators. -/
abbrev Dim : Type := Fin NumDimensions

/-- Modelled from the spec (section 4.2): `Factoradic::Factorial`, from
util/numeric.hpp (not under src/): n! as an unbounded integer,
`Factorial 0 = 1`. -/
def Factorial : Nat → Nat
  | 0 => 1
  | n + 1 => (n + 1) * Factorial n

/-- The recursion of `Factoradic::Permute`, structured on a fuel argument
(any fuel at least the list length computes the full permutation; each
step removes exactly one item). -/
def permuteGo {α : Type} : Nat → List α → Nat → List α
  | 0, _, _ => []
  | fuel + 1, items, rank =>
    if h : items.length = 0 then []
    else
      have hpos : rank % items.length < items.length :=
        Nat.mod_lt _ (Nat.pos_of_ne_zero h)
      items.get ⟨rank % items.length, hpos⟩ ::
        permuteGo fuel (items.eraseIdx (rank % items.length)) (rank / items.length)

/-- Modelled from the spec (section 4.2): `Factoradic::Permute`, from
util/numeric.hpp (not under src/): reorder `items` to the `rank`-th
permutation in the factorial number system — repeatedly pick, from the
remaining unplaced items in their current relative order, the item at
position `rank mod remaining_count`, then divide `rank` by
`remaining_count`. -/
def Permute {α : Type} (items : List α) (rank : Nat) : List α :=
  permuteGo items.length items rank

/-- Modelled from the spec (section 4.1): the digit decode of
`CartesianCounterDynamic` from util/numeric.hpp (not under src/): axis 0
is consumed first (least significant); `digit_i = rank mod radix_i;
rank = rank / radix_i`. -/
def mixedRadixDecode : List Nat → Nat → List Nat
  | [], _ => []
  | r :: rs, rank => rank % r :: mixedRadixDecode rs (rank / r)

/-- The positive divisors of `n`, in increasing order. -/
def divisorsOf (n : Nat) : List Nat :=
  ((List.range n).map (fun d => d + 1)).filter (fun d => n % d == 0)

/-- Modelled from the spec (section 4.3): the enumeration behind the
`Factors` table of util/numeric.hpp (not under src/): all ordered tuples of
`count` positive cofactors whose product is `r`, honoring pinned factors
(keyed by absolute level, starting at `lvl`). -/
def enumFactors (pinned : List (Nat × Nat)) : Nat → Nat → Nat → List (List Nat)
  | _, 0, r => if r = 1 then [[]] else []
  | lvl, count + 1, r =>
    match pinned.lookup lvl with
    | some f =>
      if f ≠ 0 ∧ r % f = 0 then
        (enumFactors pinned (lvl + 1) count (r / f)).map (fun t => f :: t)
      else []
    | none =>
      (divisorsOf r).flatMap (fun d =>
        (enumFactors pinned (lvl + 1) count (r / d)).map (fun t => d :: t))

/-- Modelled from the spec (section 4.3): the `Factors` table from
util/numeric.hpp (not under src/): every ordered factorization of `bound`
into `num_levels` cofactors, honoring the pinned prefactors. -/
def Factors (bound : Nat) (num_levels : Nat)
    (pinned : List (Nat × Nat) := []) : List (List Nat) :=
  enumFactors pinned 0 num_levels bound

/-- Modelled from the spec (section 4.1): `CartesianCounterDynamic` from
util/numeric.hpp (not under src/): per-axis radices plus a mutable current
digit vector (`Set` stores a decoded rank, `Read` returns it). -/
structure CartesianCounterDynamic where
  radix : List Nat
  current : List Nat
deriving Repr

/-- Modelled from the spec (section 4.1): `Set` decodes the rank into the
per-axis digits and stores them as the counter's current value. -/
def CartesianCounterDynamic.Set (c : CartesianCounterDynamic) (rank : Nat) :
    CartesianCounterDynamic :=
  { c with current := mixedRadixDecode c.radix rank }

/-- Modelled from the spec (section 4.1): `Read` returns the current
digit vector. -/
def CartesianCounterDynamic.Read (c : CartesianCounterDynamic) : List Nat :=
  c.current

/-- Modelled from the spec (section 4.1): `EndInteger` returns the total
size, the product of the radices. -/
def CartesianCounterDynamic.EndInteger (c : CartesianCounterDynamic) : Nat :=
  c.radix.prod

/-- mapspace::IndexFactorizationSpace (cnn-layers source, appended header):
one `Factors` table per problem dimension plus an internal mixed-radix
counter whose radices are the table sizes.  The counter is a mutable
member: `GetFactor` writes to it. -/
structure IndexFactorizationSpace where
  dimension_factors : Dim → List (List Nat)
  tiling_counter : CartesianCounterDynamic

/-- `IndexFactorizationSpace::Init`: build one factorization table per
dimension (honoring optional prefactors) and feed the table sizes to the
counter as radices.  An absent prefactor map is the empty pinned map. -/
def IndexFactorizationSpace.Init (bounds : Dim → Nat) (cofactors_order : Dim → Nat)
    (prefactors : Dim → List (Nat × Nat)) : IndexFactorizationSpace :=
  let dimension_factors := fun d => Factors (bounds d) (cofactors_order d) (prefactors d)
  { dimension_factors := dimension_factors
    tiling_counter :=
      { radix := (List.finRange NumDimensions).map (fun d => (dimension_factors d).length)
        current := List.replicate NumDimensions 0 } }

/-- `IndexFactorizationSpace::GetFactor`: sets the member counter to
`nest_id`, reads the per-dimension digit vector, and indexes the chosen
dimension's table at its digit and the requested level.  Returns the
factor (none on out-of-range indexing, which is undefined behaviour in the
C++) together with the updated space, whose counter now holds `nest_id`'s
digits. -/
def IndexFactorizationSpace.GetFactor (s : IndexFactorizationSpace) (nest_id : Nat)
    (dim : Dim) (level : Nat) : Option Nat × IndexFactorizationSpace :=
  let counter := s.tiling_counter.Set nest_id
  let cartesian_idx := counter.Read
  let res :=
    match cartesian_idx[dim.val]? with
    | none => none
    | some li =>
      match (s.dimension_factors dim)[li]? with
      | none => none
      | some tuple => tuple[level]?
  (res, { s with tiling_counter := counter })

/-- `IndexFactorizationSpace::Size`: the counter's cached total. -/
def IndexFactorizationSpace.Size (s : IndexFactorizationSpace) : Nat :=
  s.tiling_counter.EndInteger

/-- A per-level loop-order pattern of mapspace::PermutationSpace.  The C++
fields are `baked_prefix` and `permutable_suffix`; the first is named
`baked` here. -/
structure Pattern where
  baked : List Dim
  permutable_suffix : List Dim
deriving DecidableEq, Repr

instance : Inhabited Pattern := ⟨⟨[], []⟩⟩

/-- mapspace::PermutationSpace: per-level patterns and per-level sizes,
keyed by level (std::map; absent key = uninitialized level, whose lookup
via `.at` throws, modelled as `none`). -/
structure PermutationSpace where
  num_levels : Nat
  patterns : Nat → Option Pattern
  size : Nat → Option Nat

/-- The canonical dimension order `canonical_pattern_` (all 7 dimensions in
enumeration order), built by the PermutationSpace constructor. -/
def canonicalPattern : List Dim := List.finRange NumDimensions

/-- `PermutationSpace::Init`: store the level count and clear the maps. -/
def PermutationSpace.Init (num_levels : Nat) : PermutationSpace :=
  { num_levels := num_levels, patterns := fun _ => none, size := fun _ => none }

/-- `PermutationSpace::InitLevel`: the baked prefix is `pruned_dimensions`
followed by the `user_pfx` entries not already pruned (the C++ argument is
named user_prefix); the permutable suffix is every remaining dimension in
canonical order (the C++ iterates a std::set seeded with all dimensions
and pruned of the baked ones).  `none` models an assertion failure:
either `level ≥ num_levels` or the
`baked_prefix.size() + permutable_suffix.size() == NumDimensions` check. -/
def PermutationSpace.InitLevel (s : PermutationSpace) (level : Nat)
    (user_pfx : List Dim) (pruned_dimensions : List Dim := []) :
    Option PermutationSpace :=
  if level < s.num_levels then
    let baked := pruned_dimensions ++ user_pfx.filter (fun d => decide (d ∉ pruned_dimensions))
    let permutable_suffix :=
      (List.finRange NumDimensions).filter (fun d => decide (d ∉ baked))
    if baked.length + permutable_suffix.length = NumDimensions then
      some { s with
        patterns := Function.update s.patterns level (some ⟨baked, permutable_suffix⟩)
        size := Function.update s.size level (some (Factorial permutable_suffix.length)) }
    else none
  else none

/-- `PermutationSpace::InitLevelCanonical`: shorthand for `InitLevel` with
the canonical pattern as the user prefix. -/
def PermutationSpace.InitLevelCanonical (s : PermutationSpace) (level : Nat) :
    Option PermutationSpace :=
  s.InitLevel level canonicalPattern

/-- The level loop of `PermutationSpace::GetPatterns`, over an explicit
list of levels: a level whose baked prefix spans all dimensions is emitted
verbatim; otherwise the level consumes `id mod size_.at(level)` to permute
a copy of its suffix and `id` advances by division.  `none` models a
thrown `std::map::at`. -/
def getPatternsAux (pats : Nat → Option Pattern) (sz : Nat → Option Nat) :
    List Nat → Nat → Option (List (List Dim))
  | [], _ => some []
  | level :: rest, id =>
    match pats level with
    | none => none
    | some pattern =>
      if pattern.baked.length = NumDimensions then
        (getPatternsAux pats sz rest id).map (fun tl => pattern.baked :: tl)
      else
        match sz level with
        | none => none
        | some s =>
          (getPatternsAux pats sz rest (id / s)).map
            (fun tl => (pattern.baked ++ Permute pattern.permutable_suffix (id % s)) :: tl)

/-- `PermutationSpace::GetPatterns`: process levels `0..num_levels-1` in
increasing order. -/
def PermutationSpace.GetPatterns (s : PermutationSpace) (id : Nat) :
    Option (List (List Dim)) :=
  getPatternsAux s.patterns s.size (List.range s.num_levels) id

/-- The level loop of `PermutationSpace::Size`. -/
def PermutationSpace.sizeAux (s : PermutationSpace) : List Nat → Option Nat
  | [] => some 1
  | level :: rest =>
    match s.size level with
    | none => none
    | some v => (s.sizeAux rest).map (fun p => v * p)

/-- `PermutationSpace::Size`: the product of `size_.at(level)` over all
levels (`none` models a thrown `std::map::at`). -/
def PermutationSpace.Size (s : PermutationSpace) : Option Nat :=
  s.sizeAux (List.range s.num_levels)

/-- Insertion into a key-sorted association list, modelling
`std::map::operator[] =` (insert or overwrite; iteration order is
ascending by key). -/
def mapInsert {α : Type} : List (Nat × α) → Nat → α → List (Nat × α)
  | [], k, v => [(k, v)]
  | (k0, v0) :: rest, k, v =>
    if k < k0 then (k, v) :: (k0, v0) :: rest
    else if k = k0 then (k, v) :: rest
    else (k0, v0) :: mapInsert rest k v

/-- mapspace::SpatialSplitSpace: which levels are spatial, which of those
are user-specified, the per-level sizes and unit-factor counts, all keyed
by level.  The unused members `n_`, `is_fixed_`, `fixed_` of the C++ class
are omitted (no method reads them). -/
structure SpatialSplitSpace where
  num_levels : Nat
  is_user_specified : List (Nat × Bool)
  user_splits : List (Nat × Nat)
  size : List (Nat × Nat)
  unit_factors : List (Nat × Nat)

/-- `SpatialSplitSpace::Init`: store the level count and clear the maps. -/
def SpatialSplitSpace.Init (num_levels : Nat) : SpatialSplitSpace :=
  { num_levels := num_levels, is_user_specified := [], user_splits := []
    size := [], unit_factors := [] }

/-- `SpatialSplitSpace::InitLevel`: mark `level` as a free spatial level.
The C++ computes `int(NumDimensions) + 1 - unit_factors` in `unsigned`
arithmetic, hence the wrap modulo 2^32; for `unit_factors ≤ 8` this is
just `8 - unit_factors`.  `none` models the `level < num_levels_`
assertion failing. -/
def SpatialSplitSpace.InitLevel (s : SpatialSplitSpace) (level : Nat)
    (unit_factors : Nat := 0) : Option SpatialSplitSpace :=
  if level < s.num_levels then
    some { s with
      is_user_specified := mapInsert s.is_user_specified level false
      unit_factors := mapInsert s.unit_factors level (unit_factors % 2 ^ 32)
      size := mapInsert s.size level
        ((2 ^ 32 + (NumDimensions + 1) - unit_factors % 2 ^ 32) % 2 ^ 32) }
  else none

/-- `SpatialSplitSpace::InitLevelUserSpecified`: mark `level` as fixed to
`user_split` (a `uint32_t`), with per-level size 1. -/
def SpatialSplitSpace.InitLevelUserSpecified (s : SpatialSplitSpace) (level : Nat)
    (user_split : Nat) : Option SpatialSplitSpace :=
  if level < s.num_levels then
    some { s with
      is_user_specified := mapInsert s.is_user_specified level true
      user_splits := mapInsert s.user_splits level (user_split % 2 ^ 32)
      size := mapInsert s.size level 1 }
  else none

/-- The level loop of `SpatialSplitSpace::GetSplits` over an explicit list
of levels.  A level absent from `is_user_specified_` is skipped; a
user-specified level emits its stored split; a free level emits
`unit_factors_.at(level) + uint32(id % size_.at(level))` (a `uint32_t`
sum, hence the wrap) and advances `id`.  `none` models a thrown
`std::map::at`. -/
def getSplitsAux (s : SpatialSplitSpace) : List Nat → Nat → Option (List (Nat × Nat))
  | [], _ => some []
  | level :: rest, id =>
    match s.is_user_specified.lookup level with
    | none => getSplitsAux s rest id
    | some true =>
      match s.user_splits.lookup level with
      | none => none
      | some v => (getSplitsAux s rest id).map (fun tl => (level, v) :: tl)
    | some false =>
      match s.unit_factors.lookup level, s.size.lookup level with
      | some u, some sz =>
        (getSplitsAux s rest (id / sz)).map
          (fun tl => (level, (u + id % sz) % 2 ^ 32) :: tl)
      | _, _ => none

/-- `SpatialSplitSpace::GetSplits`: process levels `0..num_levels-1` in
increasing order; the result is the emitted map as a key-ascending
association list. -/
def SpatialSplitSpace.GetSplits (s : SpatialSplitSpace) (id : Nat) :
    Option (List (Nat × Nat)) :=
  getSplitsAux s (List.range s.num_levels) id

/-- `SpatialSplitSpace::Size`: the product of the stored per-level sizes,
iterating the `size_` map itself. -/
def SpatialSplitSpace.Size (s : SpatialSplitSpace) : Nat :=
  (s.size.map (fun e => e.2)).prod

/-- The named workload table `problem::layers` (layer name to per-dimension
bounds, in the dimension order R,S,P,Q,C,K,N). -/
def layers : List (String × List Nat) := [
  ("TEST", [3, 3, 40, 40, 64, 1, 1]),
  ("ALEX_conv1", [3, 3, 57, 57, 48, 96, 1]),
  ("ALEX_conv2_1", [5, 5, 27, 27, 48, 128, 1]),
  ("ALEX_conv2_2", [5, 5, 27, 27, 48, 128, 1]),
  ("ALEX_conv3", [3, 3, 13, 13, 256, 384, 1]),
  ("ALEX_conv4", [3, 3, 13, 13, 192, 384, 1]),
  ("ALEX_conv5", [3, 3, 13, 13, 192, 256, 1]),
  ("VGG_conv1_1", [3, 3, 224, 224, 3, 64, 1]),
  ("VGG_conv1_2", [3, 3, 224, 224, 64, 64, 1]),
  ("VGG_conv2_1", [3, 3, 112, 112, 64, 128, 1]),
  ("VGG_conv2_2", [3, 3, 112, 112, 128, 128, 1]),
  ("VGG_conv3_1", [3, 3, 56, 56, 128, 256, 1]),
  ("VGG_conv3_2", [3, 3, 56, 56, 256, 256, 1]),
  ("VGG_conv3_3", [3, 3, 56, 56, 256, 256, 1]),
  ("VGG_conv4_1", [3, 3, 28, 28, 256, 512, 1]),
  ("VGG_conv4_2", [3, 3, 28, 28, 512, 512, 1]),
  ("VGG_conv4_3", [3, 3, 28, 28, 512, 512, 1]),
  ("VGG_conv5_1", [3, 3, 14, 14, 512, 512, 1]),
  ("VGG_conv5_2", [3, 3, 14, 14, 512, 512, 1]),
  ("VGG_conv5_3", [3, 3, 14, 14, 512, 512, 1]),
  ("inception_3a-pool_proj", [1, 1, 28, 28, 192, 32, 1]),
  ("inception_3a-1x1", [1, 1, 28, 28, 192, 64, 1]),
  ("inception_3a-3x3_reduce", [1, 1, 28, 28, 192, 96, 1]),
  ("inception_3a-3x3", [3, 3, 28, 28, 96, 128, 1]),
  ("inception_3a-5x5_reduce", [1, 1, 28, 28, 192, 16, 1]),
  ("inception_3a-5x5", [5, 5, 28, 28, 16, 32, 1]),
  ("inception_3b-pool_proj", [1, 1, 28, 28, 256, 64, 1]),
  ("inception_3b-1x1", [1, 1, 28, 28, 256, 128, 1]),
  ("inception_3b-3x3_reduce", [1, 1, 28, 28, 256, 128, 1]),
  ("inception_3b-3x3", [3, 3, 28, 28, 128, 192, 1]),
  ("inception_3b-5x5_reduce", [1, 1, 28, 28, 256, 32, 1]),
  ("inception_3b-5x5", [5, 5, 28, 28, 32, 96, 1]),
  ("inception_4a-pool_proj", [1, 1, 14, 14, 480, 64, 1]),
  ("inception_4a-1x1", [1, 1, 14, 14, 480, 192, 1]),
  ("inception_4a-3x3_reduce", [1, 1, 14, 14, 480, 96, 1]),
  ("inception_4a-3x3", [3, 3, 14, 14, 96, 208, 1]),
  ("inception_4a-5x5_reduce", [1, 1, 14, 14, 480, 16, 1]),
  ("inception_4a-5x5", [5, 5, 14, 14, 16, 48, 1]),
  ("inception_4b-pool_proj", [1, 1, 14, 14, 512, 64, 1]),
  ("inception_4b-1x1", [1, 1, 14, 14, 512, 160, 1]),
  ("inception_4b-3x3_reduce", [1, 1, 14, 14, 512, 112, 1]),
  ("inception_4b-3x3", [3, 3, 14, 14, 112, 224, 1]),
  ("inception_4b-5x5_reduce", [1, 1, 14, 14, 512, 24, 1]),
  ("inception_4b-5x5", [5, 5, 14, 14, 24, 64, 1]),
  ("inception_4c-pool_proj", [1, 1, 14, 14, 512, 64, 1]),
  ("inception_4c-1x1", [1, 1, 14, 14, 512, 128, 1]),
  ("inception_4c-3x3_reduce", [1, 1, 14, 14, 512, 128, 1]),
  ("inception_4c-3x3", [3, 3, 14, 14, 128, 256, 1]),
  ("inception_4c-5x5_reduce", [1, 1, 14, 14, 512, 24, 1]),
  ("inception_4c-5x5", [5, 5, 14, 14, 24, 64, 1]),
  ("inception_4d-pool_proj", [1, 1, 14, 14, 512, 64, 1]),
  ("inception_4d-1x1", [1, 1, 14, 14, 512, 112, 1]),
  ("inception_4d-3x3_reduce", [1, 1, 14, 14, 512, 144, 1]),
  ("inception_4d-3x3", [3, 3, 14, 14, 144, 288, 1]),
  ("inception_4d-5x5_reduce", [1, 1, 14, 14, 512, 32, 1]),
  ("inception_4d-5x5", [5, 5, 14, 14, 32, 64, 1]),
  ("inception_4e-pool_proj", [1, 1, 14, 14, 528, 128, 1]),
  ("inception_4e-1x1", [1, 1, 14, 14, 528, 256, 1]),
  ("inception_4e-3x3_reduce", [1, 1, 14, 14, 528, 160, 1]),
  ("inception_4e-3x3", [3, 3, 14, 14, 160, 320, 1]),
  ("inception_4e-5x5_reduce", [1, 1, 14, 14, 528, 32, 1]),
  ("inception_4e-5x5", [5, 5, 14, 14, 32, 128, 1]),
  ("inception_5a-pool_proj", [1, 1, 7, 7, 832, 128, 1]),
  ("inception_5a-1x1", [1, 1, 7, 7, 832, 256, 1]),
  ("inception_5a-3x3_reduce", [1, 1, 7, 7, 832, 160, 1]),
  ("inception_5a-3x3", [3, 3, 7, 7, 160, 320, 1]),
  ("inception_5a-5x5_reduce", [1, 1, 7, 7, 832, 32, 1]),
  ("inception_5a-5x5", [5, 5, 7, 7, 32, 128, 1]),
  ("inception_5b-pool_proj", [1, 1, 7, 7, 832, 128, 1]),
  ("inception_5b-1x1", [1, 1, 7, 7, 832, 384, 1]),
  ("inception_5b-3x3_reduce", [1, 1, 7, 7, 832, 192, 1]),
  ("inception_5b-3x3", [3, 3, 7, 7, 192, 384, 1]),
  ("inception_5b-5x5_reduce", [1, 1, 7, 7, 832, 48, 1]),
  ("inception_5b-5x5", [5, 5, 7, 7, 48, 128, 1])]

/-- The fixed rounding table `problem::nearest_composite`. -/
def nearest_composite : List (Nat × Nat) := [(11, 12), (13, 15), (27, 28), (55, 56), (57, 60)]

/-- One step of the `pad_primes` loop of `GetLayerBounds`: an extent that
is a key of `nearest_composite` is replaced by its mapped value, any other
extent is unchanged. -/
def padDim (v : Nat) : Nat :=
  match nearest_composite.lookup v with
  | some w => w
  | none => v

/-- The `pad_primes` loop of `GetLayerBounds`: for each problem dimension
`pd` in `0..NumDimensions-1`, rewrite the bound at `pd` through the
rounding table in place. -/
def padLoop (b : List Nat) : List Nat :=
  (List.range NumDimensions).foldl (fun acc pd => acc.set pd (padDim (acc.getD pd 0))) b

/-- `problem::GetLayerBounds`: look the layer up in the table (an unknown
name prints an error and exits, modelled as `none`), then optionally apply
the prime-padding loop. -/
def GetLayerBounds (layer_name : String) (pad_primes : Bool) : Option (List Nat) :=
  (layers.lookup layer_name).map (fun prob => if pad_primes then padLoop prob else prob)

/-- Well-formedness of one initialized PermutationSpace level, exactly the
state `InitLevel` establishes: pattern and size present, the baked prefix
duplicate-free (the assertion), the suffix the canonically-ordered
complement of the baked prefix, and the stored size the factorial of the
suffix length. -/
def permLevelWF (s : PermutationSpace) (level : Nat) : Bool :=
  match s.patterns level, s.size level with
  | some pat, some sz =>
    decide pat.baked.Nodup &&
    decide (pat.permutable_suffix =
      (List.finRange NumDimensions).filter (fun d => decide (d ∉ pat.baked))) &&
    decide (sz = Factorial pat.permutable_suffix.length)
  | _, _ => false

/-- Well-formedness of a PermutationSpace: every level below
`num_levels` has been initialized by a successful `InitLevel`. -/
def permWF (s : PermutationSpace) : Bool :=
  (List.range s.num_levels).all (permLevelWF s)

/-- Well-formedness of an IndexFactorizationSpace with per-dimension
cofactor counts `cofac`, exactly the state `Init` establishes: counter
radices are the table sizes, every table is duplicate-free, and every
cached tuple has one factor per level. -/
def ifsWF (s : IndexFactorizationSpace) (cofac : Dim → Nat) : Bool :=
  decide (s.tiling_counter.radix =
    (List.finRange NumDimensions).map (fun d => (s.dimension_factors d).length)) &&
  (List.finRange NumDimensions).all (fun d =>
    decide (s.dimension_factors d).Nodup &&
    (s.dimension_factors d).all (fun t => t.length == cofac d))

/-- Well-formedness of one SpatialSplitSpace entry: a user-specified level
has a stored split and size 1; a free level has a unit-factor count of at
most 7 and size `NumDimensions + 1 - unit_factors`. -/
def sssLevelWF (s : SpatialSplitSpace) (e : Nat × Bool) : Bool :=
  if e.2 then
    (s.user_splits.lookup e.1).isSome && (s.size.lookup e.1 == some 1)
  else
    match s.unit_factors.lookup e.1 with
    | some u => decide (u ≤ NumDimensions) &&
        (s.size.lookup e.1 == some (NumDimensions + 1 - u))
    | none => false

/-- Well-formedness of a SpatialSplitSpace, exactly the state the `Init*`
calls establish: the maps are key-sorted, `size_` and
`is_user_specified_` share their key set, every key is a valid level, and
every entry satisfies `sssLevelWF`. -/
def sssWF (s : SpatialSplitSpace) : Bool :=
  decide (List.Pairwise (fun a b => a.1 < b.1) s.is_user_specified) &&
  decide (s.size.map (fun e => e.1) = s.is_user_specified.map (fun e => e.1)) &&
  s.is_user_specified.all (fun e => decide (e.1 < s.num_levels)) &&
  s.is_user_specified.all (sssLevelWF s)

/-- The level loop of `GetPatterns` as the spec words it (section 4.5):
for each level in order, a level whose baked prefix spans all dimensions
is returned verbatim with no entropy consumed; otherwise
`local_rank = id mod Factorial(suffix_length)` permutes a copy of the
suffix, and `id` advances by `Factorial(suffix_length)`. -/
def specGetPatterns : List Pattern → Nat → List (List Dim)
  | [], _ => []
  | pat :: rest, id =>
    if pat.baked.length = NumDimensions then
      pat.baked :: specGetPatterns rest id
    else
      (pat.baked ++ Permute pat.permutable_suffix (id % Factorial pat.permutable_suffix.length)) ::
        specGetPatterns rest (id / Factorial pat.permutable_suffix.length)

/-- A per-level spatial-split choice: fixed by the user, or free with a
unit-factor count. -/
inductive SplitChoice
  | fixed : Nat → SplitChoice
  | free : Nat → SplitChoice
deriving DecidableEq, Repr

/-- The level loop of `GetSplits` as the spec words it (section 4.6): for
each spatial level in increasing order, a fixed level emits its stored
value without consuming entropy; a free level with unit-factor count `u`
emits `u + (id mod (NumDimensions + 1 - u))` and advances `id` by that
size. -/
def specGetSplits : List (Nat × SplitChoice) → Nat → List (Nat × Nat)
  | [], _ => []
  | (l, SplitChoice.fixed v) :: rest, id => (l, v) :: specGetSplits rest id
  | (l, SplitChoice.free u) :: rest, id =>
    (l, u + id % (NumDimensions + 1 - u)) ::
      specGetSplits rest (id / (NumDimensions + 1 - u))

/-- The per-level choices of a SpatialSplitSpace, read off its maps in
level order. -/
def splitChoices (s : SpatialSplitSpace) : List (Nat × SplitChoice) :=
  s.is_user_specified.map (fun e =>
    if e.2 then (e.1, SplitChoice.fixed ((s.user_splits.lookup e.1).getD 0))
    else (e.1, SplitChoice.free ((s.unit_factors.lookup e.1).getD 0)))

/-- The per-level choices read off an arbitrary slice of the
`is_user_specified_` map. -/
def splitChoicesOf (s : SpatialSplitSpace) (entries : List (Nat × Bool)) :
    List (Nat × SplitChoice) :=
  entries.map (fun e =>
    if e.2 then (e.1, SplitChoice.fixed ((s.user_splits.lookup e.1).getD 0))
    else (e.1, SplitChoice.free ((s.unit_factors.lookup e.1).getD 0)))

/-- Insertion into a sorted key list, mirroring `mapInsert` on keys. -/
def keyIns : List Nat → Nat → List Nat
  | [], k => [k]
  | k0 :: rest, k =>
    if k < k0 then k :: k0 :: rest
    else if k = k0 then k :: rest
    else k0 :: keyIns rest k

/-- A PermutationSpace with one level, fully free (empty user prefix). -/
def psEx : PermutationSpace :=
  ((PermutationSpace.Init 1).InitLevel 0 []).getD (PermutationSpace.Init 0)

/-- A PermutationSpace on which `Init 1` ran but level 0 was never
initialized. -/
def psMissing : PermutationSpace := PermutationSpace.Init 1

/-- A SpatialSplitSpace with two levels of which only level 1 is spatial,
free with two unit factors. -/
def ssEx : SpatialSplitSpace :=
  ((SpatialSplitSpace.Init 2).InitLevel 1 2).getD (SpatialSplitSpace.Init 0)

/-- Workload bounds with extent 4 along dimension C and 1 elsewhere. -/
def boundsEx : Dim → Nat := fun d => if d.val = 4 then 4 else 1

/-- Two tiling levels along dimension C, one elsewhere. -/
def cofacEx : Dim → Nat := fun d => if d.val = 4 then 2 else 1

/-- An IndexFactorizationSpace for `boundsEx`/`cofacEx`, no prefactors. -/
def ifsEx : IndexFactorizationSpace :=
  IndexFactorizationSpace.Init boundsEx cofacEx (fun _ => [])

theorem getElem_cons_eraseIdx_perm {α : Type} (l : List α) (i : Nat) (h : i < l.length) :
    List.Perm (l.get ⟨i, h⟩ :: l.eraseIdx i) l := by
  have h2 : l.take i ++ l[i] :: l.drop (i + 1) = l := by
    conv_rhs => rw [← List.take_append_drop i l, List.drop_eq_getElem_cons h]
  rw [List.eraseIdx_eq_take_drop_succ, List.get_eq_getElem]
  conv_rhs => rw [← h2]
  exact List.perm_middle.symm

theorem permuteGo_perm {α : Type} :
    ∀ (fuel : Nat) (items : List α) (rank : Nat), items.length ≤ fuel →
      List.Perm (permuteGo fuel items rank) items := by
  intro fuel
  induction fuel with
  | zero =>
    intro items rank h
    have h0 : items = [] := List.eq_nil_of_length_eq_zero (by omega)
    simp [permuteGo, h0]
  | succ n ih =>
    intro items rank h
    by_cases h0 : items.length = 0
    · have : items = [] := List.eq_nil_of_length_eq_zero h0
      simp [permuteGo, this]
    · rw [permuteGo, dif_neg h0]
      have hpos : rank % items.length < items.length :=
        Nat.mod_lt _ (Nat.pos_of_ne_zero h0)
      have hlen : (items.eraseIdx (rank % items.length)).length ≤ n := by
        have := List.length_eraseIdx_of_lt hpos
        omega
      exact ((ih _ _ hlen).cons _).trans (getElem_cons_eraseIdx_perm items _ hpos)

theorem Permute_perm {α : Type} (items : List α) (rank : Nat) :
    List.Perm (Permute items rank) items :=
  permuteGo_perm items.length items rank le_rfl

theorem Permute_length {α : Type} (items : List α) (rank : Nat) :
    (Permute items rank).length = items.length :=
  (Permute_perm items rank).length_eq

theorem permuteGo_inj {α : Type} :
    ∀ (fuel : Nat) (items : List α) (r1 r2 : Nat), items.length ≤ fuel →
      items.Nodup → r1 < Factorial items.length → r2 < Factorial items.length →
      permuteGo fuel items r1 = permuteGo fuel items r2 → r1 = r2 := by
  intro fuel
  induction fuel with
  | zero =>
    intro items r1 r2 h _ h1 h2 _
    have h0 : items.length = 0 := by omega
    rw [h0] at h1 h2
    simp only [Factorial] at h1 h2
    omega
  | succ n ih =>
    intro items r1 r2 h hnd h1 h2 heq
    by_cases h0 : items.length = 0
    · rw [h0] at h1 h2
      simp only [Factorial] at h1 h2
      omega
    · have lpos : 0 < items.length := Nat.pos_of_ne_zero h0
      rw [permuteGo, permuteGo, dif_neg h0, dif_neg h0] at heq
      injection heq with hhead htail
      have hmod : r1 % items.length = r2 % items.length := by
        have := (List.Nodup.get_inj_iff hnd).mp hhead
        exact congrArg Fin.val this
      rw [hmod] at htail
      have hpos2 : r2 % items.length < items.length := Nat.mod_lt _ lpos
      have herlen : (items.eraseIdx (r2 % items.length)).length = items.length - 1 :=
        List.length_eraseIdx_of_lt hpos2
      have hfact : Factorial items.length = items.length * Factorial (items.length - 1) := by
        cases hl : items.length with
        | zero => omega
        | succ m => simp [Factorial]
      have hb1 : r1 / items.length < Factorial (items.length - 1) := by
        rw [Nat.div_lt_iff_lt_mul lpos, Nat.mul_comm, ← hfact]
        exact h1
      have hb2 : r2 / items.length < Factorial (items.length - 1) := by
        rw [Nat.div_lt_iff_lt_mul lpos, Nat.mul_comm, ← hfact]
        exact h2
      have hdiv : r1 / items.length = r2 / items.length := by
        refine ih _ _ _ ?_ (hnd.eraseIdx _) ?_ ?_ htail
        · omega
        · rw [herlen]; exact hb1
        · rw [herlen]; exact hb2
      have e1 := Nat.div_add_mod r1 items.length
      have e2 := Nat.div_add_mod r2 items.length
      rw [hdiv, hmod] at e1
      omega

theorem Permute_inj {α : Type} (items : List α) (r1 r2 : Nat) (hnd : items.Nodup)
    (h1 : r1 < Factorial items.length) (h2 : r2 < Factorial items.length)
    (heq : Permute items r1 = Permute items r2) : r1 = r2 :=
  permuteGo_inj items.length items r1 r2 le_rfl hnd h1 h2 heq

theorem Factorial_pos (n : Nat) : 0 < Factorial n := by
  induction n with
  | zero => simp [Factorial]
  | succ m ih => simp only [Factorial]; positivity

theorem length_mixedRadixDecode :
    ∀ (rs : List Nat) (rank : Nat), (mixedRadixDecode rs rank).length = rs.length := by
  intro rs
  induction rs with
  | nil => intro rank; simp [mixedRadixDecode]
  | cons r0 rs ih => intro rank; simp [mixedRadixDecode, ih]

theorem mixedRadixDecode_getElem_lt :
    ∀ (rs : List Nat) (rank k d r : Nat), rank < rs.prod →
      (mixedRadixDecode rs rank)[k]? = some d → rs[k]? = some r → d < r := by
  intro rs
  induction rs with
  | nil => intro rank k d r _ hd _; simp [mixedRadixDecode] at hd
  | cons r0 rs ih =>
    intro rank k d r hrank hd hr
    have hr0 : 0 < r0 := by
      rcases Nat.eq_zero_or_pos r0 with h | h
      · rw [List.prod_cons, h, Nat.zero_mul] at hrank; omega
      · exact h
    cases k with
    | zero =>
      simp only [mixedRadixDecode, List.getElem?_cons_zero, Option.some.injEq] at hd hr
      subst hd; subst hr
      exact Nat.mod_lt _ hr0
    | succ k =>
      simp only [mixedRadixDecode, List.getElem?_cons_succ] at hd hr
      refine ih (rank / r0) k d r ?_ hd hr
      rw [List.prod_cons] at hrank
      rw [Nat.div_lt_iff_lt_mul hr0, Nat.mul_comm]
      exact hrank

theorem mixedRadixDecode_inj :
    ∀ (rs : List Nat) (r1 r2 : Nat), r1 < rs.prod → r2 < rs.prod →
      mixedRadixDecode rs r1 = mixedRadixDecode rs r2 → r1 = r2 := by
  intro rs
  induction rs with
  | nil =>
    intro r1 r2 h1 h2 _
    simp only [List.prod_nil] at h1 h2
    omega
  | cons r0 rs ih =>
    intro r1 r2 h1 h2 heq
    have hr0 : 0 < r0 := by
      rcases Nat.eq_zero_or_pos r0 with h | h
      · rw [List.prod_cons, h, Nat.zero_mul] at h1; omega
      · exact h
    simp only [mixedRadixDecode, List.cons.injEq] at heq
    obtain ⟨hmod, htail⟩ := heq
    rw [List.prod_cons] at h1 h2
    have hdiv : r1 / r0 = r2 / r0 := by
      refine ih _ _ ?_ ?_ htail
      · rw [Nat.div_lt_iff_lt_mul hr0, Nat.mul_comm]; exact h1
      · rw [Nat.div_lt_iff_lt_mul hr0, Nat.mul_comm]; exact h2
    have e1 := Nat.div_add_mod r1 r0
    have e2 := Nat.div_add_mod r2 r0
    rw [hdiv, hmod] at e1
    omega

theorem length_filter_partition {α : Type} (p : α → Bool) :
    ∀ l : List α, (l.filter p).length + (l.filter (fun a => !(p a))).length = l.length := by
  intro l
  induction l with
  | nil => simp
  | cons a l ih =>
    by_cases h : p a = true <;> simp [List.filter_cons, h, ← ih] <;> omega

theorem countMem_eq_card (baked : List Dim) :
    ((List.finRange NumDimensions).filter (fun d => decide (d ∈ baked))).length
      = baked.toFinset.card := by
  have hnd : ((List.finRange NumDimensions).filter (fun d => decide (d ∈ baked))).Nodup :=
    (List.nodup_finRange _).filter _
  have hts : ((List.finRange NumDimensions).filter (fun d => decide (d ∈ baked))).toFinset
      = baked.toFinset := by
    apply List.toFinset.ext
    intro x
    simp [List.mem_filter, List.mem_finRange]
  rw [← List.toFinset_card_of_nodup hnd, hts]

theorem suffix_length_eq (baked : List Dim) :
    ((List.finRange NumDimensions).filter (fun d => decide (d ∉ baked))).length
      = NumDimensions - baked.toFinset.card := by
  have hpart :=
    length_filter_partition (fun d => decide (d ∈ baked)) (List.finRange NumDimensions)
  have hrw : ((List.finRange NumDimensions).filter (fun d => !(decide (d ∈ baked)))) =
      ((List.finRange NumDimensions).filter (fun d => decide (d ∉ baked))) := by
    simp only [decide_not]
  rw [hrw, countMem_eq_card] at hpart
  have hlen : (List.finRange NumDimensions).length = NumDimensions :=
    List.length_finRange _
  omega

theorem card_toFinset_eq_length_dedup (l : List Dim) : l.toFinset.card = l.dedup.length := by
  rw [Finset.card_def, List.toFinset_val, Multiset.coe_card]

theorem nodup_iff_card_eq (l : List Dim) : l.Nodup ↔ l.toFinset.card = l.length := by
  constructor
  · exact fun h => List.toFinset_card_of_nodup h
  · intro h
    rw [card_toFinset_eq_length_dedup] at h
    have heq : l.dedup = l := (List.dedup_sublist l).eq_of_length h
    rw [← heq]
    exact List.nodup_dedup l

theorem initlevel_check_iff (baked : List Dim) :
    (baked.length +
        ((List.finRange NumDimensions).filter (fun d => decide (d ∉ baked))).length
      = NumDimensions) ↔ baked.Nodup := by
  rw [suffix_length_eq, nodup_iff_card_eq]
  have hle : baked.toFinset.card ≤ baked.length := List.toFinset_card_le baked
  have hle7 : baked.toFinset.card ≤ NumDimensions := by
    have := Finset.card_le_univ baked.toFinset
    simpa using this
  omega

theorem suffix_nil_of_full (baked : List Dim) (hnd : baked.Nodup)
    (hlen : baked.length = NumDimensions) :
    (List.finRange NumDimensions).filter (fun d => decide (d ∉ baked)) = [] := by
  have h1 : baked.toFinset = Finset.univ := by
    refine Finset.eq_univ_of_card _ ?_
    rw [List.toFinset_card_of_nodup hnd, hlen]
    simp
  refine List.filter_eq_nil_iff.mpr ?_
  intro d _
  have hd : d ∈ baked := by
    have : d ∈ baked.toFinset := by
      rw [h1]; exact Finset.mem_univ d
    simpa using this
  simp [hd]

theorem baked_append_suffix_perm (baked : List Dim) (hnd : baked.Nodup) :
    List.Perm
      (baked ++ (List.finRange NumDimensions).filter (fun d => decide (d ∉ baked)))
      (List.finRange NumDimensions) := by
  have hsufnd : ((List.finRange NumDimensions).filter (fun d => decide (d ∉ baked))).Nodup :=
    (List.nodup_finRange _).filter _
  have happnd :
      (baked ++ (List.finRange NumDimensions).filter (fun d => decide (d ∉ baked))).Nodup := by
    refine List.Nodup.append hnd hsufnd ?_
    intro a ha hb
    rw [List.mem_filter] at hb
    simp only [decide_eq_true_eq] at hb
    exact hb.2 ha
  refine List.perm_of_nodup_nodup_toFinset_eq happnd (List.nodup_finRange _) ?_
  apply List.toFinset.ext
  intro x
  simp only [List.mem_append, List.mem_filter, List.mem_finRange, decide_eq_true_eq]
  constructor
  · intro _; trivial
  · intro _
    by_cases h : x ∈ baked
    · exact Or.inl h
    · exact Or.inr ⟨trivial, h⟩

theorem permLevelWF_elim (s : PermutationSpace) (level : Nat)
    (h : permLevelWF s level = true) :
    ∃ pat, s.patterns level = some pat ∧
      s.size level = some (Factorial pat.permutable_suffix.length) ∧
      pat.baked.Nodup ∧
      pat.permutable_suffix =
        (List.finRange NumDimensions).filter (fun d => decide (d ∉ pat.baked)) := by
  unfold permLevelWF at h
  cases hp : s.patterns level with
  | none => rw [hp] at h; simp at h
  | some pat =>
    cases hs : s.size level with
    | none => rw [hp, hs] at h; simp at h
    | some sz =>
      rw [hp, hs] at h
      simp only [Bool.and_eq_true, decide_eq_true_eq] at h
      obtain ⟨⟨h1, h2⟩, h3⟩ := h
      exact ⟨pat, rfl, by rw [h3], h1, h2⟩

theorem getPatternsAux_eq_spec (s : PermutationSpace) :
    ∀ (L : List Nat) (id : Nat), (∀ l ∈ L, permLevelWF s l = true) →
      getPatternsAux s.patterns s.size L id =
        some (specGetPatterns (L.map (fun l => (s.patterns l).getD default)) id) := by
  intro L
  induction L with
  | nil => intro id _; simp [getPatternsAux, specGetPatterns]
  | cons l rest ih =>
    intro id hwf
    obtain ⟨pat, hp, hs, hnd, hsuf⟩ := permLevelWF_elim s l (hwf l (by simp))
    have hrest : ∀ x ∈ rest, permLevelWF s x = true := fun x hx => hwf x (by simp [hx])
    simp only [getPatternsAux, hp, List.map_cons, Option.getD_some]
    by_cases hfull : pat.baked.length = NumDimensions
    · rw [if_pos hfull]
      simp only [specGetPatterns, if_pos hfull]
      rw [ih id hrest]
      rfl
    · rw [if_neg hfull]
      simp only [specGetPatterns, if_neg hfull, hs]
      rw [ih _ hrest]
      rfl

theorem getPatternsAux_isSome (s : PermutationSpace) :
    ∀ (L : List Nat) (id : Nat),
      (∀ l ∈ L, (s.patterns l).isSome ∧ (s.size l).isSome) →
      (getPatternsAux s.patterns s.size L id).isSome := by
  intro L
  induction L with
  | nil => intro id _; simp [getPatternsAux]
  | cons l rest ih =>
    intro id hL
    obtain ⟨hp, hs⟩ := hL l (by simp)
    obtain ⟨pat, hpat⟩ := Option.isSome_iff_exists.mp hp
    obtain ⟨sz, hsz⟩ := Option.isSome_iff_exists.mp hs
    have hrest : ∀ x ∈ rest, (s.patterns x).isSome ∧ (s.size x).isSome :=
      fun x hx => hL x (by simp [hx])
    simp only [getPatternsAux, hpat]
    by_cases hfull : pat.baked.length = NumDimensions
    · rw [if_pos hfull]
      obtain ⟨t, ht⟩ := Option.isSome_iff_exists.mp (ih id hrest)
      rw [ht]
      rfl
    · rw [if_neg hfull]
      simp only [hsz]
      obtain ⟨t, ht⟩ := Option.isSome_iff_exists.mp (ih (id / sz) hrest)
      rw [ht]
      rfl

theorem getPatternsAux_none (s : PermutationSpace) :
    ∀ (L : List Nat) (id : Nat) (l₀ : Nat), l₀ ∈ L → s.patterns l₀ = none →
      getPatternsAux s.patterns s.size L id = none := by
  intro L
  induction L with
  | nil => intro id l₀ h _; simp at h
  | cons l rest ih =>
    intro id l₀ hmem h0
    by_cases hl : l = l₀
    · subst hl
      simp [getPatternsAux, h0]
    · have hl₀ : l₀ ∈ rest := by
        rcases List.mem_cons.mp hmem with h | h
        · omega
        · exact h
      cases hpat : s.patterns l with
      | none => simp [getPatternsAux, hpat]
      | some pat =>
        simp only [getPatternsAux, hpat]
        by_cases hfull : pat.baked.length = NumDimensions
        · rw [if_pos hfull, ih id l₀ hl₀ h0]
          rfl
        · rw [if_neg hfull]
          cases hsz : s.size l with
          | none => rfl
          | some sz =>
            simp [ih (id / sz) l₀ hl₀ h0]

theorem sizeAux_eq (s : PermutationSpace) :
    ∀ L : List Nat, (∀ l ∈ L, permLevelWF s l = true) →
      s.sizeAux L = some ((L.map (fun l =>
        Factorial (((s.patterns l).getD default).permutable_suffix.length))).prod) := by
  intro L
  induction L with
  | nil => intro _; simp [PermutationSpace.sizeAux]
  | cons l rest ih =>
    intro hwf
    obtain ⟨pat, hp, hs, _, _⟩ := permLevelWF_elim s l (hwf l (by simp))
    have hrest : ∀ x ∈ rest, permLevelWF s x = true := fun x hx => hwf x (by simp [hx])
    simp only [PermutationSpace.sizeAux, hs, List.map_cons, hp, Option.getD_some,
      ih hrest, List.prod_cons]
    rfl

theorem sizeAux_none (s : PermutationSpace) :
    ∀ (L : List Nat) (l₀ : Nat), l₀ ∈ L → s.size l₀ = none → s.sizeAux L = none := by
  intro L
  induction L with
  | nil => intro l₀ h _; simp at h
  | cons l rest ih =>
    intro l₀ hmem h0
    by_cases hl : l = l₀
    · subst hl
      simp [PermutationSpace.sizeAux, h0]
    · have hl₀ : l₀ ∈ rest := by
        rcases List.mem_cons.mp hmem with h | h
        · omega
        · exact h
      cases hsz : s.size l with
      | none => simp [PermutationSpace.sizeAux, hsz]
      | some sz =>
        simp only [PermutationSpace.sizeAux, hsz, ih l₀ hl₀ h0]
        rfl

theorem sizeAux_isSome (s : PermutationSpace) :
    ∀ L : List Nat, (∀ l ∈ L, (s.size l).isSome) → (s.sizeAux L).isSome := by
  intro L
  induction L with
  | nil => intro _; simp [PermutationSpace.sizeAux]
  | cons l rest ih =>
    intro hL
    obtain ⟨sz, hsz⟩ := Option.isSome_iff_exists.mp (hL l (by simp))
    have hrest := ih (fun x hx => hL x (by simp [hx]))
    obtain ⟨p, hip⟩ := Option.isSome_iff_exists.mp hrest
    simp [PermutationSpace.sizeAux, hsz, hip]

theorem getPatternsAux_inj (s : PermutationSpace) :
    ∀ (L : List Nat) (i j : Nat), (∀ l ∈ L, permLevelWF s l = true) →
      i < (L.map (fun l =>
        Factorial (((s.patterns l).getD default).permutable_suffix.length))).prod →
      j < (L.map (fun l =>
        Factorial (((s.patterns l).getD default).permutable_suffix.length))).prod →
      getPatternsAux s.patterns s.size L i = getPatternsAux s.patterns s.size L j →
      i = j := by
  intro L
  induction L with
  | nil =>
    intro i j _ hi hj _
    simp only [List.map_nil, List.prod_nil] at hi hj
    omega
  | cons l rest ih =>
    intro i j hwf hi hj heq
    obtain ⟨pat, hp, hs, hnd, hsuf⟩ := permLevelWF_elim s l (hwf l (by simp))
    have hrest : ∀ x ∈ rest, permLevelWF s x = true := fun x hx => hwf x (by simp [hx])
    have hrestSome : ∀ x ∈ rest, (s.patterns x).isSome ∧ (s.size x).isSome := by
      intro x hx
      obtain ⟨pat2, hp2, hs2, _, _⟩ := permLevelWF_elim s x (hrest x hx)
      exact ⟨by simp [hp2], by simp [hs2]⟩
    simp only [List.map_cons, List.prod_cons, hp, Option.getD_some] at hi hj
    simp only [getPatternsAux, hp] at heq
    have hFpos : 0 < Factorial pat.permutable_suffix.length := Factorial_pos _
    by_cases hfull : pat.baked.length = NumDimensions
    · rw [if_pos hfull, if_pos hfull] at heq
      have hsufnil : pat.permutable_suffix = [] := by
        rw [hsuf]
        exact suffix_nil_of_full pat.baked hnd hfull
      have hF1 : Factorial pat.permutable_suffix.length = 1 := by rw [hsufnil]; rfl
      obtain ⟨t1, ht1⟩ :=
        Option.isSome_iff_exists.mp (getPatternsAux_isSome s rest i hrestSome)
      obtain ⟨t2, ht2⟩ :=
        Option.isSome_iff_exists.mp (getPatternsAux_isSome s rest j hrestSome)
      rw [ht1, ht2] at heq
      have ht12 : t1 = t2 := by
        have := Option.some.inj heq
        exact (List.cons.inj this).2
      refine ih i j hrest ?_ ?_ (by rw [ht1, ht2, ht12])
      · rw [hF1, Nat.one_mul] at hi; exact hi
      · rw [hF1, Nat.one_mul] at hj; exact hj
    · rw [if_neg hfull, if_neg hfull, hs] at heq
      obtain ⟨t1, ht1⟩ := Option.isSome_iff_exists.mp
        (getPatternsAux_isSome s rest (i / Factorial pat.permutable_suffix.length) hrestSome)
      obtain ⟨t2, ht2⟩ := Option.isSome_iff_exists.mp
        (getPatternsAux_isSome s rest (j / Factorial pat.permutable_suffix.length) hrestSome)
      simp only [ht1, ht2, Option.map] at heq
      have hinj := List.cons.inj (Option.some.inj heq)
      have hmod : i % Factorial pat.permutable_suffix.length
          = j % Factorial pat.permutable_suffix.length := by
        have hperm := List.append_cancel_left hinj.1
        refine Permute_inj _ _ _ ?_ ?_ ?_ hperm
        · rw [hsuf]
          exact (List.nodup_finRange _).filter _
        · exact Nat.mod_lt _ hFpos
        · exact Nat.mod_lt _ hFpos
      have hdiv : i / Factorial pat.permutable_suffix.length
          = j / Factorial pat.permutable_suffix.length := by
        refine ih _ _ hrest ?_ ?_ (by rw [ht1, ht2, hinj.2])
        · rw [Nat.div_lt_iff_lt_mul hFpos, Nat.mul_comm]; exact hi
        · rw [Nat.div_lt_iff_lt_mul hFpos, Nat.mul_comm]; exact hj
      have e1 := Nat.div_add_mod i (Factorial pat.permutable_suffix.length)
      have e2 := Nat.div_add_mod j (Factorial pat.permutable_suffix.length)
      rw [hdiv, hmod] at e1
      omega

theorem specGetPatterns_length :
    ∀ (pats : List Pattern) (id : Nat), (specGetPatterns pats id).length = pats.length := by
  intro pats
  induction pats with
  | nil => intro id; simp [specGetPatterns]
  | cons p rest ih =>
    intro id
    by_cases hfull : p.baked.length = NumDimensions
    · simp [specGetPatterns, if_pos hfull, ih]
    · simp [specGetPatterns, if_neg hfull, ih]

theorem specGetPatterns_getElem :
    ∀ (pats : List Pattern) (id k : Nat) (pat : Pattern),
      (∀ p ∈ pats, p.baked.Nodup ∧ p.permutable_suffix =
        (List.finRange NumDimensions).filter (fun d => decide (d ∉ p.baked))) →
      pats[k]? = some pat →
      ∃ tail, (specGetPatterns pats id)[k]? = some (pat.baked ++ tail) ∧
        List.Perm tail pat.permutable_suffix := by
  intro pats
  induction pats with
  | nil => intro id k pat _ hk; simp at hk
  | cons p rest ih =>
    intro id k pat hwf hk
    obtain ⟨hnd, hsuf⟩ := hwf p (by simp)
    have hwfr : ∀ q ∈ rest, q.baked.Nodup ∧ q.permutable_suffix =
        (List.finRange NumDimensions).filter (fun d => decide (d ∉ q.baked)) :=
      fun q hq => hwf q (by simp [hq])
    cases k with
    | zero =>
      rw [List.getElem?_cons_zero] at hk
      have hpp : pat = p := (Option.some.inj hk).symm
      subst hpp
      by_cases hfull : pat.baked.length = NumDimensions
      · have hsufnil : pat.permutable_suffix = [] := by
          rw [hsuf]
          exact suffix_nil_of_full pat.baked hnd hfull
        refine ⟨[], ?_, by rw [hsufnil]⟩
        simp [specGetPatterns, if_pos hfull]
      · refine ⟨Permute pat.permutable_suffix
          (id % Factorial pat.permutable_suffix.length), ?_, Permute_perm _ _⟩
        simp [specGetPatterns, if_neg hfull]
    | succ k =>
      rw [List.getElem?_cons_succ] at hk
      by_cases hfull : p.baked.length = NumDimensions
      · obtain ⟨tail, h1, h2⟩ := ih id k pat hwfr hk
        refine ⟨tail, ?_, h2⟩
        simp only [specGetPatterns, if_pos hfull, List.getElem?_cons_succ]
        exact h1
      · obtain ⟨tail, h1, h2⟩ :=
          ih (id / Factorial p.permutable_suffix.length) k pat hwfr hk
        refine ⟨tail, ?_, h2⟩
        simp only [specGetPatterns, if_neg hfull, List.getElem?_cons_succ]
        exact h1

theorem permWF_levels (s : PermutationSpace) (hwf : permWF s = true) :
    ∀ l ∈ List.range s.num_levels, permLevelWF s l = true := by
  intro l hl
  exact List.all_eq_true.mp hwf l hl

theorem mem_of_lookup_eq_some {κ α : Type} [BEq κ] [LawfulBEq κ]
    {m : List (κ × α)} {k : κ} {v : α}
    (h : m.lookup k = some v) : (k, v) ∈ m := by
  obtain ⟨l₁, l₂, heq, _⟩ := List.lookup_eq_some_iff.mp h
  rw [heq]
  exact List.mem_append.mpr (Or.inr (by simp))

theorem lookup_none_keys {α : Type} {m : List (Nat × α)} {k : Nat}
    (h : m.lookup k = none) : ∀ e ∈ m, e.1 ≠ k := by
  intro e he
  have := List.lookup_eq_none_iff.mp h e he
  simpa [bne_iff_ne] using fun hk => (by simp [hk] at this)

theorem lookup_eq_none_of_keys {α : Type} {m : List (Nat × α)} {k : Nat}
    (h : ∀ e ∈ m, e.1 ≠ k) : m.lookup k = none := by
  refine List.lookup_eq_none_iff.mpr ?_
  intro e he
  have := h e he
  simp [bne_iff_ne]
  omega

theorem sssWF_elim (s : SpatialSplitSpace) (hwf : sssWF s = true) :
    List.Pairwise (fun a b => a.1 < b.1) s.is_user_specified ∧
    s.size.map (fun e => e.1) = s.is_user_specified.map (fun e => e.1) ∧
    (∀ e ∈ s.is_user_specified, e.1 < s.num_levels) ∧
    (∀ e ∈ s.is_user_specified, sssLevelWF s e = true) := by
  unfold sssWF at hwf
  simp only [Bool.and_eq_true, decide_eq_true_eq, List.all_eq_true] at hwf
  exact ⟨hwf.1.1.1, hwf.1.1.2, fun e he => by simpa using hwf.1.2 e he, hwf.2⟩

theorem sss_lookup_true (s : SpatialSplitSpace) (hwf : sssWF s = true) (l : Nat)
    (h : s.is_user_specified.lookup l = some true) :
    (∃ v, s.user_splits.lookup l = some v) ∧ s.size.lookup l = some 1 := by
  have hmem : (l, true) ∈ s.is_user_specified := mem_of_lookup_eq_some h
  have hlvl := (sssWF_elim s hwf).2.2.2 (l, true) hmem
  unfold sssLevelWF at hlvl
  simp only [if_true, Bool.and_eq_true, beq_iff_eq, Option.isSome_iff_exists] at hlvl
  simpa using hlvl

theorem sss_lookup_false (s : SpatialSplitSpace) (hwf : sssWF s = true) (l : Nat)
    (h : s.is_user_specified.lookup l = some false) :
    ∃ u, s.unit_factors.lookup l = some u ∧ u ≤ NumDimensions ∧
      s.size.lookup l = some (NumDimensions + 1 - u) := by
  have hmem : (l, false) ∈ s.is_user_specified := mem_of_lookup_eq_some h
  have hlvl := (sssWF_elim s hwf).2.2.2 (l, false) hmem
  unfold sssLevelWF at hlvl
  simp only [Bool.false_eq_true, if_false] at hlvl
  cases hu : s.unit_factors.lookup l with
  | none => rw [hu] at hlvl; simp at hlvl
  | some u =>
    rw [hu] at hlvl
    simp only [Bool.and_eq_true, decide_eq_true_eq, beq_iff_eq] at hlvl
    exact ⟨u, rfl, hlvl.1, hlvl.2⟩

theorem sss_lookup_none (s : SpatialSplitSpace) (hwf : sssWF s = true) (l : Nat)
    (h : s.is_user_specified.lookup l = none) : s.size.lookup l = none := by
  have hkeys := (sssWF_elim s hwf).2.1
  refine lookup_eq_none_of_keys ?_
  intro e he hk
  have h1 : e.1 ∈ s.size.map (fun e => e.1) := List.mem_map_of_mem _ he
  rw [hkeys] at h1
  obtain ⟨e2, he2, hfst⟩ := List.mem_map.mp h1
  exact lookup_none_keys h e2 he2 (by rw [hfst, hk])

theorem getSplitsAux_isSome (s : SpatialSplitSpace) (hwf : sssWF s = true) :
    ∀ (L : List Nat) (id : Nat), (getSplitsAux s L id).isSome := by
  intro L
  induction L with
  | nil => intro id; simp [getSplitsAux]
  | cons l rest ih =>
    intro id
    cases h : s.is_user_specified.lookup l with
    | none => simpa [getSplitsAux, h] using ih id
    | some b =>
      cases b with
      | true =>
        obtain ⟨⟨v, hv⟩, _⟩ := sss_lookup_true s hwf l h
        obtain ⟨t, ht⟩ := Option.isSome_iff_exists.mp (ih id)
        simp [getSplitsAux, h, hv, ht]
      | false =>
        obtain ⟨u, hu, _, hsz⟩ := sss_lookup_false s hwf l h
        obtain ⟨t, ht⟩ := Option.isSome_iff_exists.mp
          (ih (id / (NumDimensions + 1 - u)))
        simp [getSplitsAux, h, hu, hsz, ht]

theorem prod_range_update (g : Nat → Nat) (v : Nat) :
    ∀ (num k : Nat), k < num → g k = 1 →
      ((List.range num).map (fun l => if l = k then v else g l)).prod
        = v * ((List.range num).map g).prod := by
  intro num
  induction num with
  | zero => intro k hk _; omega
  | succ n ih =>
    intro k hk hg
    rw [List.range_succ, List.map_append, List.map_append, List.prod_append,
      List.prod_append]
    by_cases hkn : k = n
    · subst hkn
      have hcong : (List.range k).map (fun l => if l = k then v else g l)
          = (List.range k).map g := by
        refine List.map_congr_left ?_
        intro a ha
        have : a < k := List.mem_range.mp ha
        simp [Nat.ne_of_lt this]
      rw [hcong]
      simp [hg, Nat.mul_comm]
    · have hkn2 : k < n := by omega
      rw [ih k hkn2 hg]
      have : (List.map (fun l => if l = k then v else g l) [n]).prod = g n := by
        have hnk : n ≠ k := fun h2 => hkn h2.symm
        simp [hnk]
      rw [this]
      simp [Nat.mul_assoc]

theorem prod_lookup_eq_size :
    ∀ (m : List (Nat × Nat)) (num : Nat),
      List.Pairwise (fun a b => a.1 < b.1) m → (∀ e ∈ m, e.1 < num) →
      ((List.range num).map (fun l => (m.lookup l).getD 1)).prod
        = (m.map (fun e => e.2)).prod := by
  intro m
  induction m with
  | nil =>
    intro num _ _
    simp only [List.map_nil, List.prod_nil]
    refine List.prod_eq_one ?_
    intro x hx
    obtain ⟨l, _, hl⟩ := List.mem_map.mp hx
    simp [List.lookup_nil] at hl
    omega
  | cons e rest ih =>
    intro num hsort hlt
    obtain ⟨k, v⟩ := e
    have hkrest : ∀ e2 ∈ rest, k < e2.1 := by
      intro e2 he2
      exact (List.pairwise_cons.mp hsort).1 e2 he2
    have hsort2 : List.Pairwise (fun a b => a.1 < b.1) rest :=
      (List.pairwise_cons.mp hsort).2
    have hgk : ((rest.lookup k).getD 1) = 1 := by
      have : rest.lookup k = none := by
        refine lookup_eq_none_of_keys ?_
        intro e2 he2
        have := hkrest e2 he2
        omega
      simp [this]
    have hcong : (List.range num).map (fun l => ((((k, v) :: rest).lookup l).getD 1))
        = (List.range num).map (fun l =>
            if l = k then v else ((rest.lookup l).getD 1)) := by
      refine List.map_congr_left ?_
      intro a _
      rw [List.lookup_cons]
      by_cases hak : a = k
      · simp [hak]
      · have : (a == k) = false := by simp [hak]
        simp [this, hak]
    rw [hcong, prod_range_update _ v num k (hlt (k, v) (by simp)) hgk,
      ih num hsort2 (fun e2 he2 => hlt e2 (by simp [he2]))]
    simp

theorem sss_size_eq (s : SpatialSplitSpace) (hwf : sssWF s = true) :
    SpatialSplitSpace.Size s
      = ((List.range s.num_levels).map (fun l => (s.size.lookup l).getD 1)).prod := by
  obtain ⟨hsort, hkeys, hlt, _⟩ := sssWF_elim s hwf
  have hsortsz : List.Pairwise (fun a b => a.1 < b.1) s.size := by
    have h1 : List.Pairwise (fun a b : Nat => a < b) (s.size.map (fun e => e.1)) := by
      rw [hkeys]
      exact List.pairwise_map.mpr hsort
    exact List.pairwise_map.mp h1
  have hltsz : ∀ e ∈ s.size, e.1 < s.num_levels := by
    intro e he
    have h1 : e.1 ∈ s.size.map (fun e => e.1) := List.mem_map_of_mem _ he
    rw [hkeys] at h1
    obtain ⟨e2, he2, hfst⟩ := List.mem_map.mp h1
    rw [← hfst]
    exact hlt e2 he2
  rw [SpatialSplitSpace.Size, ← prod_lookup_eq_size s.size s.num_levels hsortsz hltsz]

theorem getSplitsAux_inj (s : SpatialSplitSpace) (hwf : sssWF s = true) :
    ∀ (L : List Nat) (i j : Nat),
      i < ((L.map (fun l => (s.size.lookup l).getD 1))).prod →
      j < ((L.map (fun l => (s.size.lookup l).getD 1))).prod →
      getSplitsAux s L i = getSplitsAux s L j → i = j := by
  intro L
  induction L with
  | nil =>
    intro i j hi hj _
    simp only [List.map_nil, List.prod_nil] at hi hj
    omega
  | cons l rest ih =>
    intro i j hi hj heq
    simp only [List.map_cons, List.prod_cons] at hi hj
    cases h : s.is_user_specified.lookup l with
    | none =>
      have hsz : s.size.lookup l = none := sss_lookup_none s hwf l h
      rw [hsz] at hi hj
      simp only [Option.getD_none, Nat.one_mul] at hi hj
      simp only [getSplitsAux, h] at heq
      exact ih i j hi hj heq
    | some b =>
      cases b with
      | true =>
        obtain ⟨⟨v, hv⟩, hsz1⟩ := sss_lookup_true s hwf l h
        rw [hsz1] at hi hj
        simp only [Option.getD_some, Nat.one_mul] at hi hj
        simp only [getSplitsAux, h, hv] at heq
        obtain ⟨t1, ht1⟩ := Option.isSome_iff_exists.mp (getSplitsAux_isSome s hwf rest i)
        obtain ⟨t2, ht2⟩ := Option.isSome_iff_exists.mp (getSplitsAux_isSome s hwf rest j)
        rw [ht1, ht2] at heq
        simp only [Option.map] at heq
        have ht12 : t1 = t2 := (List.cons.inj (Option.some.inj heq)).2
        exact ih i j hi hj (by rw [ht1, ht2, ht12])
      | false =>
        obtain ⟨u, hu, hule, hsz⟩ := sss_lookup_false s hwf l h
        rw [hsz] at hi hj
        simp only [Option.getD_some] at hi hj
        have hszpos : 0 < NumDimensions + 1 - u := by omega
        simp only [getSplitsAux, h, hu, hsz] at heq
        obtain ⟨t1, ht1⟩ := Option.isSome_iff_exists.mp
          (getSplitsAux_isSome s hwf rest (i / (NumDimensions + 1 - u)))
        obtain ⟨t2, ht2⟩ := Option.isSome_iff_exists.mp
          (getSplitsAux_isSome s hwf rest (j / (NumDimensions + 1 - u)))
        rw [ht1, ht2] at heq
        simp only [Option.map] at heq
        have hpair := List.cons.inj (Option.some.inj heq)
        have hval := (Prod.mk.inj (hpair.1)).2
        have himod : i % (NumDimensions + 1 - u) < NumDimensions + 1 - u :=
          Nat.mod_lt _ hszpos
        have hjmod : j % (NumDimensions + 1 - u) < NumDimensions + 1 - u :=
          Nat.mod_lt _ hszpos
        have h7 : NumDimensions = 7 := rfl
        have hilt : u + i % (NumDimensions + 1 - u) < 2 ^ 32 := by
          have h32 : (2 : Nat) ^ 32 = 4294967296 := by norm_num
          omega
        have hjlt : u + j % (NumDimensions + 1 - u) < 2 ^ 32 := by
          have h32 : (2 : Nat) ^ 32 = 4294967296 := by norm_num
          omega
        rw [Nat.mod_eq_of_lt hilt, Nat.mod_eq_of_lt hjlt] at hval
        have hmod : i % (NumDimensions + 1 - u) = j % (NumDimensions + 1 - u) := by
          omega
        have hdiv : i / (NumDimensions + 1 - u) = j / (NumDimensions + 1 - u) := by
          refine ih _ _ ?_ ?_ (by rw [ht1, ht2, hpair.2])
          · rw [Nat.div_lt_iff_lt_mul hszpos, Nat.mul_comm]; exact hi
          · rw [Nat.div_lt_iff_lt_mul hszpos, Nat.mul_comm]; exact hj
        have e1 := Nat.div_add_mod i (NumDimensions + 1 - u)
        have e2 := Nat.div_add_mod j (NumDimensions + 1 - u)
        rw [hdiv, hmod] at e1
        omega

theorem splitChoices_eq (s : SpatialSplitSpace) :
    splitChoices s = splitChoicesOf s s.is_user_specified := rfl

theorem filter_mem_cons_of_none {α : Type} (m : List (Nat × α)) (l : Nat)
    (rest : List Nat) (hnone : m.lookup l = none) :
    m.filter (fun e => decide (e.1 ∈ l :: rest))
      = m.filter (fun e => decide (e.1 ∈ rest)) := by
  refine List.filter_congr ?_
  intro e he
  have hne := lookup_none_keys hnone e he
  simp only [decide_eq_decide, List.mem_cons]
  constructor
  · intro h
    rcases h with h | h
    · omega
    · exact h
  · intro h
    exact Or.inr h

theorem filter_mem_cons_of_lookup {α : Type} :
    ∀ (m : List (Nat × α)) (l : Nat) (rest : List Nat) (b : α),
      List.Pairwise (fun a b => a.1 < b.1) m →
      (∀ k ∈ rest, l < k) →
      m.lookup l = some b →
      m.filter (fun e => decide (e.1 ∈ l :: rest))
        = (l, b) :: m.filter (fun e => decide (e.1 ∈ rest)) := by
  intro m
  induction m with
  | nil => intro l rest b _ _ hb; simp at hb
  | cons e m ih =>
    intro l rest b hsort hrest hb
    obtain ⟨k0, v0⟩ := e
    have hk0 : ∀ e2 ∈ m, k0 < e2.1 := (List.pairwise_cons.mp hsort).1
    have hsort2 := (List.pairwise_cons.mp hsort).2
    rw [List.lookup_cons] at hb
    rw [List.filter_cons, List.filter_cons]
    by_cases hkl : l = k0
    · subst hkl
      simp only [beq_self_eq_true] at hb
      have hv0 : v0 = b := Option.some.inj hb
      subst hv0
      have hp : decide ((l, v0).1 ∈ l :: rest) = true := by simp
      have hq : decide ((l, v0).1 ∈ rest) = false := by
        simp only [decide_eq_false_iff_not]
        intro hin
        have := hrest l hin
        omega
      simp only [hp, hq, if_true, if_false]
      congr 1
      refine List.filter_congr ?_
      intro e2 he2
      have hlt := hk0 e2 he2
      simp only [decide_eq_decide, List.mem_cons]
      constructor
      · intro h
        rcases h with h | h
        · omega
        · exact h
      · intro h
        exact Or.inr h
    · have hbeq : (l == k0) = false := by simp [hkl]
      rw [hbeq] at hb
      have hmem : (l, b) ∈ m := mem_of_lookup_eq_some hb
      have hk0l : k0 < l := by
        have := hk0 (l, b) hmem
        simpa using this
      have hp : decide ((k0, v0).1 ∈ l :: rest) = false := by
        simp only [decide_eq_false_iff_not, List.mem_cons]
        rintro (h | h)
        · exact hkl h.symm
        · have := hrest k0 h
          omega
      have hq : decide ((k0, v0).1 ∈ rest) = false := by
        simp only [decide_eq_false_iff_not]
        intro h
        have := hrest k0 h
        omega
      simp only [hp, hq, if_false]
      exact ih l rest b hsort2 hrest hb

theorem getSplitsAux_eq_spec (s : SpatialSplitSpace) (hwf : sssWF s = true) :
    ∀ (L : List Nat), List.Pairwise (fun a b => a < b) L →
      ∀ id, getSplitsAux s L id =
        some (specGetSplits
          (splitChoicesOf s
            (s.is_user_specified.filter (fun e => decide (e.1 ∈ L)))) id) := by
  intro L
  induction L with
  | nil => intro _ id; simp [getSplitsAux, splitChoicesOf, specGetSplits]
  | cons l rest ih =>
    intro hsort id
    have hlrest : ∀ k ∈ rest, l < k := (List.pairwise_cons.mp hsort).1
    have hsort2 := (List.pairwise_cons.mp hsort).2
    have hsortm := (sssWF_elim s hwf).1
    cases h : s.is_user_specified.lookup l with
    | none =>
      rw [filter_mem_cons_of_none s.is_user_specified l rest h]
      simp only [getSplitsAux, h]
      exact ih hsort2 id
    | some b =>
      rw [filter_mem_cons_of_lookup s.is_user_specified l rest b hsortm hlrest h]
      cases b with
      | true =>
        obtain ⟨⟨v, hv⟩, _⟩ := sss_lookup_true s hwf l h
        simp only [getSplitsAux, h, hv, splitChoicesOf, List.map_cons]
        rw [ih hsort2 id]
        simp [specGetSplits, hv, splitChoicesOf]
      | false =>
        obtain ⟨u, hu, hule, hsz⟩ := sss_lookup_false s hwf l h
        simp only [getSplitsAux, h, hu, hsz, splitChoicesOf, List.map_cons]
        rw [ih hsort2 (id / (NumDimensions + 1 - u))]
        have h7 : NumDimensions = 7 := rfl
        have hmodlt : id % (NumDimensions + 1 - u) < NumDimensions + 1 - u :=
          Nat.mod_lt _ (by omega)
        have hlt : u + id % (NumDimensions + 1 - u) < 2 ^ 32 := by
          have h32 : (2 : Nat) ^ 32 = 4294967296 := by norm_num
          omega
        simp [specGetSplits, hu, splitChoicesOf, Nat.mod_eq_of_lt]
        omega

theorem specGetSplits_keys :
    ∀ (cs : List (Nat × SplitChoice)) (id : Nat),
      (specGetSplits cs id).map (fun e => e.1) = cs.map (fun e => e.1) := by
  intro cs
  induction cs with
  | nil => intro id; simp [specGetSplits]
  | cons c rest ih =>
    intro id
    obtain ⟨l, choice⟩ := c
    cases choice with
    | fixed v => simp [specGetSplits, ih]
    | free u => simp [specGetSplits, ih]

theorem splitChoicesOf_keys (s : SpatialSplitSpace) (entries : List (Nat × Bool)) :
    (splitChoicesOf s entries).map (fun e => e.1) = entries.map (fun e => e.1) := by
  unfold splitChoicesOf
  rw [List.map_map]
  refine List.map_congr_left ?_
  intro e _
  by_cases h : e.2 <;> simp [h]

theorem ifsWF_elim (s : IndexFactorizationSpace) (cofac : Dim → Nat)
    (hwf : ifsWF s cofac = true) :
    s.tiling_counter.radix =
      (List.finRange NumDimensions).map (fun d => (s.dimension_factors d).length) ∧
    ∀ d : Dim, (s.dimension_factors d).Nodup ∧
      ∀ t ∈ s.dimension_factors d, t.length = cofac d := by
  unfold ifsWF at hwf
  simp only [Bool.and_eq_true, decide_eq_true_eq, List.all_eq_true, beq_iff_eq] at hwf
  refine ⟨hwf.1, fun d => ?_⟩
  have := hwf.2 d (List.mem_finRange d)
  exact ⟨this.1, fun t ht => this.2 t ht⟩

theorem finRange_map_getElem {β : Type} (f : Dim → β) (k : Nat) (hk : k < NumDimensions) :
    ((List.finRange NumDimensions).map f)[k]? = some (f ⟨k, hk⟩) := by
  have hlen : k < ((List.finRange NumDimensions).map f).length := by simp [hk]
  rw [List.getElem?_eq_getElem hlen]
  simp [List.getElem_map, List.getElem_finRange, Fin.cast]

theorem GetFactor_fst (s : IndexFactorizationSpace) (nest_id : Nat) (dim : Dim)
    (level : Nat) :
    (s.GetFactor nest_id dim level).1 =
      match (mixedRadixDecode s.tiling_counter.radix nest_id)[dim.val]? with
      | none => none
      | some li =>
        match (s.dimension_factors dim)[li]? with
        | none => none
        | some tuple => tuple[level]? := rfl

theorem ifs_digit_facts (s : IndexFactorizationSpace) (cofac : Dim → Nat)
    (hwf : ifsWF s cofac = true) (i : Nat) (hi : i < s.Size) (d : Dim) :
    ∃ di, (mixedRadixDecode s.tiling_counter.radix i)[d.val]? = some di ∧
      di < (s.dimension_factors d).length := by
  obtain ⟨hradix, _⟩ := ifsWF_elim s cofac hwf
  have hradlen : s.tiling_counter.radix.length = NumDimensions := by
    rw [hradix]; simp
  have hdlen : d.val < (mixedRadixDecode s.tiling_counter.radix i).length := by
    rw [length_mixedRadixDecode, hradlen]
    exact d.isLt
  refine ⟨(mixedRadixDecode s.tiling_counter.radix i)[d.val], List.getElem?_eq_getElem hdlen, ?_⟩
  have hrk : s.tiling_counter.radix[d.val]? = some ((s.dimension_factors d).length) := by
    rw [hradix]
    have h1 := finRange_map_getElem (fun x => (s.dimension_factors x).length) d.val d.isLt
    simp only [Fin.eta] at h1
    exact h1
  exact mixedRadixDecode_getElem_lt s.tiling_counter.radix i d.val _ _ hi
    (List.getElem?_eq_getElem hdlen) hrk

theorem ifs_getfactor_total (s : IndexFactorizationSpace) (cofac : Dim → Nat)
    (hwf : ifsWF s cofac = true) (i : Nat) (hi : i < s.Size) (d : Dim) (lvl : Nat)
    (hlvl : lvl < cofac d) : ((s.GetFactor i d lvl).1).isSome := by
  obtain ⟨di, hdi, hdilt⟩ := ifs_digit_facts s cofac hwf i hi d
  obtain ⟨_, htab⟩ := ifsWF_elim s cofac hwf
  have htlen : (s.dimension_factors d)[di].length = cofac d :=
    (htab d).2 _ (List.getElem_mem hdilt)
  rw [GetFactor_fst]
  simp only [hdi, List.getElem?_eq_getElem hdilt,
    List.getElem?_eq_getElem (show lvl < (s.dimension_factors d)[di].length by omega)]
  rfl

theorem ifs_getfactor_inj (s : IndexFactorizationSpace) (cofac : Dim → Nat)
    (hwf : ifsWF s cofac = true) (i j : Nat) (hi : i < s.Size) (hj : j < s.Size)
    (hne : i ≠ j) :
    ∃ (d : Dim) (lvl : Nat), lvl < cofac d ∧
      (s.GetFactor i d lvl).1 ≠ (s.GetFactor j d lvl).1 := by
  obtain ⟨hradix, htab⟩ := ifsWF_elim s cofac hwf
  have hdec : mixedRadixDecode s.tiling_counter.radix i
      ≠ mixedRadixDecode s.tiling_counter.radix j :=
    fun h => hne (mixedRadixDecode_inj s.tiling_counter.radix i j hi hj h)
  have hex : ∃ k : Nat, (mixedRadixDecode s.tiling_counter.radix i)[k]?
      ≠ (mixedRadixDecode s.tiling_counter.radix j)[k]? := by
    by_contra hall
    push_neg at hall
    exact hdec (List.ext_getElem? hall)
  obtain ⟨k, hk⟩ := hex
  have hradlen : s.tiling_counter.radix.length = NumDimensions := by
    rw [hradix]; simp
  have hklt : k < NumDimensions := by
    by_contra hge
    push_neg at hge
    have h1 : (mixedRadixDecode s.tiling_counter.radix i)[k]? = none :=
      List.getElem?_eq_none (by rw [length_mixedRadixDecode, hradlen]; omega)
    have h2 : (mixedRadixDecode s.tiling_counter.radix j)[k]? = none :=
      List.getElem?_eq_none (by rw [length_mixedRadixDecode, hradlen]; omega)
    rw [h1, h2] at hk
    exact hk rfl
  obtain ⟨di, hdi, hdilt⟩ := ifs_digit_facts s cofac hwf i hi ⟨k, hklt⟩
  obtain ⟨dj, hdj, hdjlt⟩ := ifs_digit_facts s cofac hwf j hj ⟨k, hklt⟩
  have hdij : di ≠ dj := by
    intro h
    rw [hdi, hdj, h] at hk
    exact hk rfl
  have htupne : (s.dimension_factors ⟨k, hklt⟩)[di]
      ≠ (s.dimension_factors ⟨k, hklt⟩)[dj] := by
    intro h
    exact hdij (((htab ⟨k, hklt⟩).1.getElem_inj_iff).mp h)
  have hlen_i : (s.dimension_factors ⟨k, hklt⟩)[di].length = cofac ⟨k, hklt⟩ :=
    (htab ⟨k, hklt⟩).2 _ (List.getElem_mem hdilt)
  have hlen_j : (s.dimension_factors ⟨k, hklt⟩)[dj].length = cofac ⟨k, hklt⟩ :=
    (htab ⟨k, hklt⟩).2 _ (List.getElem_mem hdjlt)
  have hexl : ∃ lvl, lvl < cofac ⟨k, hklt⟩ ∧
      ((s.dimension_factors ⟨k, hklt⟩)[di])[lvl]?
        ≠ ((s.dimension_factors ⟨k, hklt⟩)[dj])[lvl]? := by
    by_contra hall
    push_neg at hall
    refine htupne (List.ext_getElem? ?_)
    intro n
    by_cases hn : n < cofac ⟨k, hklt⟩
    · exact hall n hn
    · rw [List.getElem?_eq_none (by omega : (s.dimension_factors ⟨k, hklt⟩)[di].length ≤ n),
        List.getElem?_eq_none (by omega : (s.dimension_factors ⟨k, hklt⟩)[dj].length ≤ n)]
  obtain ⟨lvl, hlvl, hval⟩ := hexl
  refine ⟨⟨k, hklt⟩, lvl, hlvl, ?_⟩
  rw [GetFactor_fst, GetFactor_fst]
  have hdival : (mixedRadixDecode s.tiling_counter.radix i)[(⟨k, hklt⟩ : Dim).val]?
      = some di := hdi
  simp only [hdival, hdj, List.getElem?_eq_getElem hdilt, List.getElem?_eq_getElem hdjlt]
  exact hval

theorem foldl_set_range (f : Nat → Nat) :
    ∀ (n : Nat) (b : List Nat), n ≤ b.length →
      (List.range n).foldl (fun acc pd => acc.set pd (f (acc.getD pd 0))) b
        = (b.take n).map f ++ b.drop n := by
  intro n
  induction n with
  | zero => intro b _; simp
  | succ n ih =>
    intro b hlen
    have hbn : n < b.length := by omega
    rw [List.range_succ, List.foldl_append, ih b (by omega)]
    simp only [List.foldl_cons, List.foldl_nil]
    have hdrop : b.drop n = b[n] :: b.drop (n + 1) := List.drop_eq_getElem_cons hbn
    have htlen : ((b.take n).map f).length = n := by
      simp [List.length_take]
      omega
    rw [hdrop]
    have hgetD : ((b.take n).map f ++ b[n] :: b.drop (n + 1)).getD n 0 = b[n] := by
      rw [List.getD_eq_getElem?_getD, List.getElem?_append_right (by omega), htlen,
        Nat.sub_self]
      simp [List.getElem?_eq_getElem hbn]
    rw [hgetD, List.set_append_right _ _ (by omega)]
    have hsub : n - ((b.take n).map f).length = 0 := by omega
    rw [hsub, List.set_cons_zero]
    have htake : b.take (n + 1) = b.take n ++ [b[n]] := by
      rw [List.take_succ, List.getElem?_eq_getElem hbn]
      rfl
    rw [htake, List.map_append]
    simp

theorem padLoop_eq_map (b : List Nat) (hb : b.length = NumDimensions) :
    padLoop b = b.map padDim := by
  unfold padLoop
  rw [foldl_set_range padDim NumDimensions b (by omega),
    List.take_of_length_le (by omega), List.drop_of_length_le (by omega),
    List.append_nil]

theorem layers_entry_length : ∀ e ∈ layers, e.2.length = NumDimensions := by decide

/-- C1: For each of the three spaces, decoding is injective over the index
range — for every pair of distinct indices below `Size()` the decoded
structural results differ (for the Index Factorization Space at some
(dimension, level) pair; for the Permutation Space and the Spatial Split
Space as whole results) — and every index below `Size()` decodes without
error. -/
theorem c1_decoding_injective
    (ifs : IndexFactorizationSpace) (cofac : Dim → Nat)
    (ps : PermutationSpace) (ss : SpatialSplitSpace)
    (hifs : ifsWF ifs cofac = true) (hps : permWF ps = true) (hss : sssWF ss = true) :
    ((∀ i j, i < ifs.Size → j < ifs.Size → i ≠ j →
        ∃ (d : Dim) (lvl : Nat), lvl < cofac d ∧
          (ifs.GetFactor i d lvl).1 ≠ (ifs.GetFactor j d lvl).1) ∧
      (∀ i, i < ifs.Size → ∀ (d : Dim) (lvl : Nat), lvl < cofac d →
        ((ifs.GetFactor i d lvl).1).isSome)) ∧
    (∀ sz, ps.Size = some sz →
      (∀ i j, i < sz → j < sz → i ≠ j → ps.GetPatterns i ≠ ps.GetPatterns j) ∧
      (∀ i, i < sz → (ps.GetPatterns i).isSome)) ∧
    ((∀ i j, i < ss.Size → j < ss.Size → i ≠ j → ss.GetSplits i ≠ ss.GetSplits j) ∧
      (∀ i, i < ss.Size → (ss.GetSplits i).isSome)) := by
  refine ⟨⟨fun i j hi hj hne => ifs_getfactor_inj ifs cofac hifs i j hi hj hne,
    fun i hi d lvl hlvl => ifs_getfactor_total ifs cofac hifs i hi d lvl hlvl⟩, ?_, ?_, ?_⟩
  · intro sz hsz
    have hlv := permWF_levels ps hps
    have hP := sizeAux_eq ps (List.range ps.num_levels) hlv
    have hsz2 : sz = ((List.range ps.num_levels).map (fun l =>
        Factorial (((ps.patterns l).getD default).permutable_suffix.length))).prod := by
      have : ps.Size = ps.sizeAux (List.range ps.num_levels) := rfl
      rw [this, hP] at hsz
      exact (Option.some.inj hsz).symm
    subst hsz2
    constructor
    · intro i j hi hj hne heq
      exact hne (getPatternsAux_inj ps (List.range ps.num_levels) i j hlv hi hj heq)
    · intro i _
      refine getPatternsAux_isSome ps (List.range ps.num_levels) i ?_
      intro l hl
      obtain ⟨pat, hp, hs, _, _⟩ := permLevelWF_elim ps l (hlv l hl)
      exact ⟨by simp [hp], by simp [hs]⟩
  · intro i j hi hj hne heq
    rw [sss_size_eq ss hss] at hi hj
    exact hne (getSplitsAux_inj ss hss (List.range ss.num_levels) i j hi hj heq)
  · intro i _
    exact getSplitsAux_isSome ss hss (List.range ss.num_levels) i

theorem c1_witness :
    (∃ (d : Dim) (lvl : Nat), lvl < cofacEx d ∧
      (ifsEx.GetFactor 1 d lvl).1 ≠ (ifsEx.GetFactor 2 d lvl).1) ∧
    PermutationSpace.GetPatterns psEx 0 ≠ PermutationSpace.GetPatterns psEx 1 ∧
    SpatialSplitSpace.GetSplits ssEx 0 ≠ SpatialSplitSpace.GetSplits ssEx 1 ∧
    (SpatialSplitSpace.GetSplits ssEx 5).isSome := by
  have h := c1_decoding_injective ifsEx cofacEx psEx ssEx (by decide) (by decide) (by decide)
  refine ⟨h.1.1 1 2 (by decide) (by decide) (by decide), ?_, ?_, ?_⟩
  · exact (h.2.1 5040 (by decide)).1 0 1 (by decide) (by decide) (by decide)
  · exact h.2.2.1 0 1 (by decide) (by decide) (by decide)
  · exact h.2.2.2 5 (by decide)

/-- C2: For every initialized level of a PermutationSpace and every global
index, the pattern returned by `GetPatterns` for that level is the baked
prefix (in place, identical across indices) followed by a permutation of
the permutable suffix only, and baked prefix and suffix are disjoint and
together contain each of the 7 dimensions exactly once. -/
theorem c2_baked_invariant (s : PermutationSpace) (hwf : permWF s = true) (id : Nat) :
    ∃ out, s.GetPatterns id = some out ∧ out.length = s.num_levels ∧
      ∀ (level : Nat) (pat : Pattern), level < s.num_levels →
        s.patterns level = some pat →
        ∃ tail, out[level]? = some (pat.baked ++ tail) ∧
          List.Perm tail pat.permutable_suffix ∧
          List.Perm (pat.baked ++ pat.permutable_suffix)
            (List.finRange NumDimensions) := by
  have hlv := permWF_levels s hwf
  have heq := getPatternsAux_eq_spec s (List.range s.num_levels) id hlv
  refine ⟨specGetPatterns
    ((List.range s.num_levels).map (fun l => (s.patterns l).getD default)) id,
    heq, ?_, ?_⟩
  · rw [specGetPatterns_length]
    simp
  · intro level pat hlevel hpat
    have hplv : ((List.range s.num_levels).map
        (fun l => (s.patterns l).getD default))[level]? = some pat := by
      rw [List.getElem?_map, List.getElem?_range hlevel]
      simp [hpat]
    have hwfall : ∀ p ∈ (List.range s.num_levels).map
        (fun l => (s.patterns l).getD default),
        p.baked.Nodup ∧ p.permutable_suffix =
          (List.finRange NumDimensions).filter (fun d => decide (d ∉ p.baked)) := by
      intro p hp
      obtain ⟨l, hl, heq2⟩ := List.mem_map.mp hp
      obtain ⟨pat2, hp2, _, hnd2, hsuf2⟩ := permLevelWF_elim s l (hlv l hl)
      rw [← heq2, hp2]
      exact ⟨hnd2, hsuf2⟩
    obtain ⟨tail, h1, h2⟩ := specGetPatterns_getElem _ id level pat hwfall hplv
    have hwfpat := hwfall pat (List.getElem?_mem hplv)
    refine ⟨tail, h1, h2, ?_⟩
    rw [hwfpat.2]
    exact baked_append_suffix_perm pat.baked hwfpat.1

theorem c2_witness :
    ∃ out, PermutationSpace.GetPatterns psEx 1 = some out ∧
      out.length = psEx.num_levels ∧
      ∀ (level : Nat) (pat : Pattern), level < psEx.num_levels →
        psEx.patterns level = some pat →
        ∃ tail, out[level]? = some (pat.baked ++ tail) ∧
          List.Perm tail pat.permutable_suffix ∧
          List.Perm (pat.baked ++ pat.permutable_suffix)
            (List.finRange NumDimensions) :=
  c2_baked_invariant psEx (by decide) 1

/-- C3: `GetPatterns(global_index)` processes levels `0..num_levels-1` in
increasing order; a level whose baked prefix spans all 7 dimensions is
returned verbatim with `global_index` unchanged; any other level takes
`local_rank = global_index mod Factorial(suffix_length)`, divides
`global_index` by that factorial, permutes a copy of the level's suffix by
`local_rank` via the factorial-number-system codec, and returns the baked
prefix followed by the permuted suffix. -/
theorem c3_getpatterns_algorithm (s : PermutationSpace) (hwf : permWF s = true)
    (id : Nat) :
    s.GetPatterns id = some (specGetPatterns
      ((List.range s.num_levels).map (fun l => (s.patterns l).getD default)) id) :=
  getPatternsAux_eq_spec s (List.range s.num_levels) id (permWF_levels s hwf)

theorem c3_witness :
    PermutationSpace.GetPatterns psEx 722 = some (specGetPatterns
      ((List.range psEx.num_levels).map (fun l => (psEx.patterns l).getD default))
      722) :=
  c3_getpatterns_algorithm psEx (by decide) 722

/-- C4: `PermutationSpace::Size()` is the product over all levels of
`Factorial(suffix_length)` (a level with a full-size baked prefix has an
empty suffix and contributes `Factorial 0 = 1`); moreover
`Factorial 0 = 1`, `Factorial 1 = 1`, `Factorial 7 = 5040`, and a
PermutationSpace with a single fully-free level has `Size() = 5040`. -/
theorem c4_size_product_of_factorials (s : PermutationSpace)
    (hwf : permWF s = true) :
    s.Size = some (((List.range s.num_levels).map (fun l =>
      Factorial (((s.patterns l).getD default).permutable_suffix.length))).prod) ∧
    Factorial 0 = 1 ∧ Factorial 1 = 1 ∧ Factorial 7 = 5040 ∧
    PermutationSpace.Size psEx = some 5040 :=
  ⟨sizeAux_eq s (List.range s.num_levels) (permWF_levels s hwf),
    by decide, by decide, by decide, by decide⟩

theorem c4_witness :
    PermutationSpace.Size psEx = some (((List.range psEx.num_levels).map (fun l =>
      Factorial (((psEx.patterns l).getD default).permutable_suffix.length))).prod) ∧
    Factorial 7 = 5040 :=
  ⟨(c4_size_product_of_factorials psEx (by decide)).1,
    (c4_size_product_of_factorials psEx (by decide)).2.2.2.1⟩

/-- C5: For every global index, `GetSplits` returns a map whose domain is
exactly the initialized (spatial) levels, produced by processing them in
increasing order: a user-specified level emits its stored value without
consuming the index, and a free level with `u` unit factors emits
`u + (id mod (7 + 1 - u))` before dividing the index by that per-level
size; in particular a free level with `unit_factors = 2` has per-level
size 6 and its values range exactly over `{2,...,7}`. -/
theorem c5_getsplits_decode (s : SpatialSplitSpace) (hwf : sssWF s = true) :
    (∀ id, s.GetSplits id = some (specGetSplits (splitChoices s) id)) ∧
    (∀ id out, s.GetSplits id = some out →
      out.map (fun e => e.1) = s.is_user_specified.map (fun e => e.1)) ∧
    ssEx.size.lookup 1 = some 6 ∧
    (List.range 6).map (fun id => SpatialSplitSpace.GetSplits ssEx id)
      = [some [(1, 2)], some [(1, 3)], some [(1, 4)], some [(1, 5)],
         some [(1, 6)], some [(1, 7)]] := by
  have hfull : s.is_user_specified.filter
      (fun e => decide (e.1 ∈ List.range s.num_levels)) = s.is_user_specified := by
    refine List.filter_eq_self.mpr ?_
    intro e he
    have := (sssWF_elim s hwf).2.2.1 e he
    simp [List.mem_range, this]
  have hmain : ∀ id, s.GetSplits id
      = some (specGetSplits (splitChoices s) id) := by
    intro id
    have h := getSplitsAux_eq_spec s hwf (List.range s.num_levels)
      (List.pairwise_lt_range s.num_levels) id
    rw [hfull, ← splitChoices_eq] at h
    exact h
  refine ⟨hmain, ?_, by decide, by decide⟩
  intro id out hout
  rw [hmain id] at hout
  have hout2 : out = specGetSplits (splitChoices s) id := Option.some.inj hout.symm
  rw [hout2, specGetSplits_keys, splitChoices_eq, splitChoicesOf_keys]

theorem c5_witness :
    SpatialSplitSpace.GetSplits ssEx 3
        = some (specGetSplits (splitChoices ssEx) 3) ∧
    ssEx.size.lookup 1 = some 6 :=
  ⟨(c5_getsplits_decode ssEx (by decide)).1 3,
    (c5_getsplits_decode ssEx (by decide)).2.2.1⟩

/-- C6 counterexample: a `GetFactor` call does modify observable state of
its space — it overwrites the member counter's current digit vector.  On
the concrete space `ifsEx`, decoding index 1 changes the counter from the
all-zero vector left by `Init`. -/
theorem c6_counterexample :
    (ifsEx.GetFactor 1 (4 : Dim) 0).2.tiling_counter.current
      ≠ ifsEx.tiling_counter.current := by decide

/-- C6 (amended): `GetPatterns` and `GetSplits` write no state (they are
embedded as pure functions of their space); `GetFactor` leaves the
factorization tables and the counter radices unchanged and writes only the
counter's current digit vector (to the decoded digits of its argument),
and its result is a pure function of its arguments and the cached tables,
independent of the counter's prior value. -/
theorem c6_decode_state_effects (s : IndexFactorizationSpace) (id : Nat)
    (d : Dim) (lvl : Nat) :
    (s.GetFactor id d lvl).2.dimension_factors = s.dimension_factors ∧
    (s.GetFactor id d lvl).2.tiling_counter.radix = s.tiling_counter.radix ∧
    (s.GetFactor id d lvl).2.tiling_counter.current
      = mixedRadixDecode s.tiling_counter.radix id ∧
    (∀ cur, (IndexFactorizationSpace.GetFactor
        { s with tiling_counter := { s.tiling_counter with current := cur } }
        id d lvl).1
      = (s.GetFactor id d lvl).1) :=
  ⟨rfl, rfl, rfl, fun _ => rfl⟩

/-- C7: For every layer name present in the workload table,
`GetLayerBounds(name, pad_primes = true)` returns the stored bounds with
every extent that is a key of the rounding table
`{11 → 12, 13 → 15, 27 → 28, 55 → 56, 57 → 60}` replaced by its mapped
value and every other extent unchanged, and
`GetLayerBounds(name, pad_primes = false)` returns the stored bounds
unchanged. -/
theorem c7_getlayerbounds (name : String) (b : List Nat)
    (h : layers.lookup name = some b) :
    GetLayerBounds name true = some (b.map padDim) ∧
    GetLayerBounds name false = some b := by
  have hmem : (name, b) ∈ layers := mem_of_lookup_eq_some h
  have hlen : b.length = NumDimensions := layers_entry_length (name, b) hmem
  unfold GetLayerBounds
  rw [h]
  simp [padLoop_eq_map b hlen]

theorem c7_witness :
    GetLayerBounds "ALEX_conv1" true
        = some ([3, 3, 57, 57, 48, 96, 1].map padDim) ∧
    GetLayerBounds "ALEX_conv1" false = some [3, 3, 57, 57, 48, 96, 1] :=
  c7_getlayerbounds "ALEX_conv1" [3, 3, 57, 57, 48, 96, 1] (by decide)

/-- C8: If any level below `num_levels` was never initialized (so the
pattern and size maps have no entry for it), both `GetPatterns` and
`Size()` fail (`std::map::at` throws, modelled as `none`); if every level
was initialized, neither fails. -/
theorem c8_uninitialized_levels (s : PermutationSpace) :
    (∀ level, level < s.num_levels → s.patterns level = none →
      s.size level = none →
      (∀ id, s.GetPatterns id = none) ∧ s.Size = none) ∧
    ((∀ level, level < s.num_levels →
        (s.patterns level).isSome ∧ (s.size level).isSome) →
      (∀ id, (s.GetPatterns id).isSome) ∧ (s.Size).isSome) := by
  constructor
  · intro level hlt hpat hsz
    constructor
    · intro id
      exact getPatternsAux_none s (List.range s.num_levels) id level
        (List.mem_range.mpr hlt) hpat
    · exact sizeAux_none s (List.range s.num_levels) level
        (List.mem_range.mpr hlt) hsz
  · intro hinit
    constructor
    · intro id
      exact getPatternsAux_isSome s (List.range s.num_levels) id
        (fun l hl => hinit l (List.mem_range.mp hl))
    · exact sizeAux_isSome s (List.range s.num_levels)
        (fun l hl => (hinit l (List.mem_range.mp hl)).2)

theorem c8_witness :
    PermutationSpace.GetPatterns psMissing 0 = none ∧
    PermutationSpace.Size psMissing = none ∧
    (PermutationSpace.GetPatterns psEx 0).isSome ∧
    (PermutationSpace.Size psEx).isSome := by
  have h1 := (c8_uninitialized_levels psMissing).1 0 (by decide) rfl rfl
  have h2 := (c8_uninitialized_levels psEx).2 (by
    intro level hlvl
    have hl0 : level = 0 := by
      have h3 : psEx.num_levels = 1 := rfl
      omega
    subst hl0
    exact ⟨by decide, by decide⟩)
  exact ⟨h1.1 0, h1.2, h2.1 0, h2.2⟩

/-- C9: If the concatenation of `pruned_dimensions` with the user-prefix
entries not in `pruned_dimensions` contains any dimension more than once,
the assertion `baked_prefix.size() + permutable_suffix.size() ==
NumDimensions` in `InitLevel` fails; if that concatenation is
duplicate-free (and the level is in range), the assertion holds. -/
theorem c9_initlevel_assertion (s : PermutationSpace) (level : Nat)
    (user_pfx pruned_dimensions : List Dim) :
    (¬ (pruned_dimensions
        ++ user_pfx.filter (fun d => decide (d ∉ pruned_dimensions))).Nodup →
      s.InitLevel level user_pfx pruned_dimensions = none) ∧
    ((pruned_dimensions
        ++ user_pfx.filter (fun d => decide (d ∉ pruned_dimensions))).Nodup →
      level < s.num_levels →
      (s.InitLevel level user_pfx pruned_dimensions).isSome) := by
  constructor
  · intro hdup
    unfold PermutationSpace.InitLevel
    by_cases hlvl : level < s.num_levels
    · rw [if_pos hlvl, if_neg]
      intro hcheck
      exact hdup ((initlevel_check_iff _).mp hcheck)
    · rw [if_neg hlvl]
  · intro hnd hlvl
    unfold PermutationSpace.InitLevel
    rw [if_pos hlvl, if_pos ((initlevel_check_iff _).mpr hnd)]
    rfl

theorem c9_witness :
    PermutationSpace.InitLevel (PermutationSpace.Init 1) 0 []
        [(0 : Dim), (0 : Dim)] = none ∧
    (PermutationSpace.InitLevel (PermutationSpace.Init 1) 0 [] []).isSome :=
  ⟨(c9_initlevel_assertion (PermutationSpace.Init 1) 0 [] [(0 : Dim), (0 : Dim)]).1
      (by decide),
    (c9_initlevel_assertion (PermutationSpace.Init 1) 0 [] []).2 (by decide)
      (by decide)⟩

theorem getSplitsAux_init (n : Nat) :
    ∀ (L : List Nat) (id : Nat),
      getSplitsAux (SpatialSplitSpace.Init n) L id = some [] := by
  intro L
  induction L with
  | nil => intro id; rfl
  | cons l rest ih =>
    intro id
    simp only [getSplitsAux, List.lookup_nil]
    exact ih id

/-- C10: A SpatialSplitSpace on which only `Init(num_levels)` ran (no level
ever initialized) has `Size() = 1` and `GetSplits` returns the empty map
for every index. -/
theorem c10_empty_spatial_space (n id : Nat) :
    (SpatialSplitSpace.Init n).Size = 1 ∧
    (SpatialSplitSpace.Init n).GetSplits id = some [] :=
  ⟨rfl, getSplitsAux_init n (List.range n) id⟩

theorem divisorsOf_nodup (n : Nat) : (divisorsOf n).Nodup := by
  unfold divisorsOf
  have hinj : Function.Injective (fun d : Nat => d + 1) :=
    fun a b h => by exact Nat.add_right_cancel h
  exact (List.Nodup.map hinj (List.nodup_range n)).filter _

theorem enumFactors_length (pinned : List (Nat × Nat)) :
    ∀ (count lvl r : Nat), ∀ t ∈ enumFactors pinned lvl count r, t.length = count := by
  intro count
  induction count with
  | zero =>
    intro lvl r t ht
    unfold enumFactors at ht
    split at ht
    · simp only [List.mem_singleton] at ht
      rw [ht]
      rfl
    · simp at ht
  | succ n ih =>
    intro lvl r t ht
    unfold enumFactors at ht
    split at ht
    next f hp =>
      split at ht
      · obtain ⟨t2, ht2, heq⟩ := List.mem_map.mp ht
        rw [← heq]
        simp [ih (lvl + 1) (r / f) t2 ht2]
      · simp at ht
    next hp =>
      obtain ⟨d, _, hin⟩ := List.mem_flatMap.mp ht
      obtain ⟨t2, ht2, heq⟩ := List.mem_map.mp hin
      rw [← heq]
      simp [ih (lvl + 1) (r / d) t2 ht2]

theorem enumFactors_nodup (pinned : List (Nat × Nat)) :
    ∀ (count lvl r : Nat), (enumFactors pinned lvl count r).Nodup := by
  intro count
  have hconsinj : ∀ x : Nat, Function.Injective (fun t : List Nat => x :: t) :=
    fun x a b h => (List.cons.inj h).2
  induction count with
  | zero =>
    intro lvl r
    unfold enumFactors
    split <;> simp
  | succ n ih =>
    intro lvl r
    unfold enumFactors
    split
    next f hp =>
      split
      · exact List.Nodup.map (hconsinj f) (ih (lvl + 1) (r / f))
      · simp
    next hp =>
      refine List.nodup_flatMap.mpr ⟨?_, ?_⟩
      · intro d _
        exact List.Nodup.map (hconsinj d) (ih (lvl + 1) (r / d))
      · refine List.Pairwise.imp ?_ (divisorsOf_nodup r)
        intro d1 d2 hne t ht1 ht2
        obtain ⟨x1, _, hx1⟩ := List.mem_map.mp ht1
        obtain ⟨x2, _, hx2⟩ := List.mem_map.mp ht2
        rw [← hx2] at hx1
        exact hne (List.cons.inj hx1).1

theorem ifsWF_Init (bounds cofac : Dim → Nat) (pre : Dim → List (Nat × Nat)) :
    ifsWF (IndexFactorizationSpace.Init bounds cofac pre) cofac = true := by
  unfold ifsWF IndexFactorizationSpace.Init
  simp only [Bool.and_eq_true, decide_eq_true_eq, List.all_eq_true, beq_iff_eq]
  refine ⟨trivial, ?_⟩
  intro d _
  constructor
  · simpa [Factors] using enumFactors_nodup (pre d) (cofac d) 0 (bounds d)
  · intro t ht
    simpa using enumFactors_length (pre d) (cofac d) 0 (bounds d) t
      (by simpa [Factors] using ht)

theorem InitLevel_establishes_wf (s s' : PermutationSpace) (level : Nat)
    (user_pfx pruned_dimensions : List Dim)
    (h : s.InitLevel level user_pfx pruned_dimensions = some s') :
    s'.num_levels = s.num_levels ∧ permLevelWF s' level = true ∧
    ∀ l, l ≠ level → s'.patterns l = s.patterns l ∧ s'.size l = s.size l := by
  unfold PermutationSpace.InitLevel at h
  by_cases hlvl : level < s.num_levels
  · rw [if_pos hlvl] at h
    dsimp only at h
    split at h
    next hcheck =>
      obtain rfl := (Option.some.inj h).symm
      refine ⟨rfl, ?_, ?_⟩
      · unfold permLevelWF
        simp only [Function.update_same, Bool.and_eq_true, decide_eq_true_eq]
        exact ⟨⟨(initlevel_check_iff _).mp hcheck, trivial⟩, trivial⟩
      · intro l hl
        constructor
        · simp [Function.update_noteq hl]
        · simp [Function.update_noteq hl]
    next hcheck => exact absurd h (by simp)
  · rw [if_neg hlvl] at h
    exact absurd h (by simp)

theorem Init_clears_levels (num_levels level : Nat) :
    (PermutationSpace.Init num_levels).patterns level = none ∧
    (PermutationSpace.Init num_levels).size level = none :=
  ⟨rfl, rfl⟩

theorem mapInsert_lookup_self {α : Type} :
    ∀ (m : List (Nat × α)) (k : Nat) (v : α), (mapInsert m k v).lookup k = some v := by
  intro m
  induction m with
  | nil => intro k v; simp [mapInsert]
  | cons e rest ih =>
    intro k v
    obtain ⟨k0, v0⟩ := e
    unfold mapInsert
    by_cases h1 : k < k0
    · simp [h1]
    · rw [if_neg h1]
      by_cases h2 : k = k0
      · simp [h2]
      · rw [if_neg h2, List.lookup_cons]
        have : (k == k0) = false := by simp [h2]
        rw [this]
        exact ih k v

theorem mapInsert_lookup_ne {α : Type} :
    ∀ (m : List (Nat × α)) (k : Nat) (v : α) (k' : Nat), k' ≠ k →
      (mapInsert m k v).lookup k' = m.lookup k' := by
  intro m
  induction m with
  | nil =>
    intro k v k' hne
    have hkk : (k' == k) = false := by simp [hne]
    simp [mapInsert, List.lookup_cons, hkk]
  | cons e rest ih =>
    intro k v k' hne
    obtain ⟨k0, v0⟩ := e
    unfold mapInsert
    have hkk : (k' == k) = false := by simp [hne]
    by_cases h1 : k < k0
    · simp only [if_pos h1, List.lookup_cons, hkk]
    · by_cases h2 : k = k0
      · subst h2
        simp [if_neg h1, List.lookup_cons, hkk]
      · simp only [if_neg h1, if_neg h2, List.lookup_cons]
        by_cases h3 : k' = k0
        · simp [h3]
        · have hk3 : (k' == k0) = false := by simp [h3]
          simp only [hk3]
          exact ih k v k' hne

theorem mem_mapInsert {α : Type} :
    ∀ (m : List (Nat × α)) (k : Nat) (v : α) (e : Nat × α),
      e ∈ mapInsert m k v → e = (k, v) ∨ e ∈ m := by
  intro m
  induction m with
  | nil =>
    intro k v e he
    simp [mapInsert] at he
    exact Or.inl (by simp [he])
  | cons e0 rest ih =>
    intro k v e he
    obtain ⟨k0, v0⟩ := e0
    unfold mapInsert at he
    by_cases h1 : k < k0
    · rw [if_pos h1] at he
      rcases List.mem_cons.mp he with h | h
      · exact Or.inl h
      · exact Or.inr h
    · rw [if_neg h1] at he
      by_cases h2 : k = k0
      · rw [if_pos h2] at he
        rcases List.mem_cons.mp he with h | h
        · exact Or.inl h
        · exact Or.inr (by simp [h])
      · rw [if_neg h2] at he
        rcases List.mem_cons.mp he with h | h
        · exact Or.inr (by simp [h])
        · rcases ih k v e h with h3 | h3
          · exact Or.inl h3
          · exact Or.inr (by simp [h3])

theorem mem_mapInsert_strong {α : Type} :
    ∀ (m : List (Nat × α)) (k : Nat) (v : α) (e : Nat × α),
      List.Pairwise (fun a b => a.1 < b.1) m →
      e ∈ mapInsert m k v → e = (k, v) ∨ (e ∈ m ∧ e.1 ≠ k) := by
  intro m
  induction m with
  | nil =>
    intro k v e _ he
    simp [mapInsert] at he
    exact Or.inl (by simp [he])
  | cons e0 rest ih =>
    intro k v e hsort he
    obtain ⟨k0, v0⟩ := e0
    have hk0 : ∀ e2 ∈ rest, k0 < e2.1 := (List.pairwise_cons.mp hsort).1
    have hsort2 := (List.pairwise_cons.mp hsort).2
    unfold mapInsert at he
    by_cases h1 : k < k0
    · rw [if_pos h1] at he
      rcases List.mem_cons.mp he with h | h
      · exact Or.inl h
      · refine Or.inr ⟨h, ?_⟩
        rcases List.mem_cons.mp h with h2 | h2
        · rw [h2]; omega
        · have := hk0 e h2; omega
    · rw [if_neg h1] at he
      by_cases h2 : k = k0
      · rw [if_pos h2] at he
        rcases List.mem_cons.mp he with h | h
        · exact Or.inl h
        · refine Or.inr ⟨by simp [h], ?_⟩
          have := hk0 e h; omega
      · rw [if_neg h2] at he
        rcases List.mem_cons.mp he with h | h
        · refine Or.inr ⟨by simp [h], ?_⟩
          rw [h]; simp; omega
        · rcases ih k v e hsort2 h with h3 | h3
          · exact Or.inl h3
          · exact Or.inr ⟨by simp [h3.1], h3.2⟩

theorem mapInsert_pairwise {α : Type} :
    ∀ (m : List (Nat × α)) (k : Nat) (v : α),
      List.Pairwise (fun a b => a.1 < b.1) m →
      List.Pairwise (fun a b => a.1 < b.1) (mapInsert m k v) := by
  intro m
  induction m with
  | nil => intro k v _; simp [mapInsert]
  | cons e0 rest ih =>
    intro k v hsort
    obtain ⟨k0, v0⟩ := e0
    have hk0 : ∀ e2 ∈ rest, k0 < e2.1 := (List.pairwise_cons.mp hsort).1
    have hsort2 := (List.pairwise_cons.mp hsort).2
    unfold mapInsert
    by_cases h1 : k < k0
    · rw [if_pos h1]
      refine List.pairwise_cons.mpr ⟨?_, hsort⟩
      intro e2 he2
      rcases List.mem_cons.mp he2 with h | h
      · rw [h]; omega
      · have := hk0 e2 h; simp; omega
    · rw [if_neg h1]
      by_cases h2 : k = k0
      · rw [if_pos h2]
        refine List.pairwise_cons.mpr ⟨?_, hsort2⟩
        intro e2 he2
        have := hk0 e2 he2
        simp
        omega
      · rw [if_neg h2]
        refine List.pairwise_cons.mpr ⟨?_, ih k v hsort2⟩
        intro e2 he2
        rcases mem_mapInsert rest k v e2 he2 with h | h
        · rw [h]; simp; omega
        · exact hk0 e2 h

theorem mapInsert_keys {α : Type} :
    ∀ (m : List (Nat × α)) (k : Nat) (v : α),
      (mapInsert m k v).map (fun e => e.1) = keyIns (m.map (fun e => e.1)) k := by
  intro m
  induction m with
  | nil => intro k v; simp [mapInsert, keyIns]
  | cons e rest ih =>
    intro k v
    obtain ⟨k0, v0⟩ := e
    unfold mapInsert keyIns
    by_cases h1 : k < k0
    · simp [h1]
    · by_cases h2 : k = k0
      · simp [h1, h2]
      · simp only [List.map_cons]
        rw [if_neg h1, if_neg h1, if_neg h2, if_neg h2]
        simp [ih k v]

theorem sssWF_Init (n : Nat) : sssWF (SpatialSplitSpace.Init n) = true := by
  unfold sssWF SpatialSplitSpace.Init
  simp

theorem sss_InitLevel_wf (s s' : SpatialSplitSpace) (level u : Nat)
    (hu : u ≤ NumDimensions) (hwf : sssWF s = true)
    (h : s.InitLevel level u = some s') : sssWF s' = true := by
  obtain ⟨hsort, hkeys, hlt, hent⟩ := sssWF_elim s hwf
  unfold SpatialSplitSpace.InitLevel at h
  by_cases hlvl : level < s.num_levels
  · rw [if_pos hlvl] at h
    obtain rfl := (Option.some.inj h).symm
    have h7 : NumDimensions = 7 := rfl
    have h32 : (2 : Nat) ^ 32 = 4294967296 := by norm_num
    have hu32 : u % 2 ^ 32 = u := Nat.mod_eq_of_lt (by omega)
    have hszv : (2 ^ 32 + (NumDimensions + 1) - u % 2 ^ 32) % 2 ^ 32
        = NumDimensions + 1 - u := by
      rw [hu32]
      omega
    unfold sssWF
    simp only [Bool.and_eq_true, decide_eq_true_eq, List.all_eq_true]
    refine ⟨⟨⟨mapInsert_pairwise _ _ _ hsort, ?_⟩, ?_⟩, ?_⟩
    · rw [mapInsert_keys, mapInsert_keys, hkeys]
    · intro e he
      rcases mem_mapInsert _ _ _ e he with h2 | h2
      · rw [h2]
        simpa using hlvl
      · simpa using hlt e h2
    · intro e he
      rcases mem_mapInsert_strong _ _ _ e hsort he with h2 | h2
      · rw [h2]
        unfold sssLevelWF
        simp only [mapInsert_lookup_self]
        simp [hu32, hszv, hu, h7]
        omega
      · obtain ⟨hmem, hne⟩ := h2
        have hold := hent e hmem
        unfold sssLevelWF at hold ⊢
        cases e with
        | mk l b =>
          have hlne : l ≠ level := hne
          cases b with
          | true =>
            simp only [if_true] at hold ⊢
            simpa [mapInsert_lookup_ne _ _ _ l hlne] using hold
          | false =>
            simp only [Bool.false_eq_true, if_false] at hold ⊢
            simpa [mapInsert_lookup_ne _ _ _ l hlne] using hold
  · rw [if_neg hlvl] at h
    exact absurd h (by simp)

theorem sss_InitLevelUserSpecified_wf (s s' : SpatialSplitSpace)
    (level user_split : Nat) (hwf : sssWF s = true)
    (h : s.InitLevelUserSpecified level user_split = some s') : sssWF s' = true := by
  obtain ⟨hsort, hkeys, hlt, hent⟩ := sssWF_elim s hwf
  unfold SpatialSplitSpace.InitLevelUserSpecified at h
  by_cases hlvl : level < s.num_levels
  · rw [if_pos hlvl] at h
    obtain rfl := (Option.some.inj h).symm
    unfold sssWF
    simp only [Bool.and_eq_true, decide_eq_true_eq, List.all_eq_true]
    refine ⟨⟨⟨mapInsert_pairwise _ _ _ hsort, ?_⟩, ?_⟩, ?_⟩
    · rw [mapInsert_keys, mapInsert_keys, hkeys]
    · intro e he
      rcases mem_mapInsert _ _ _ e he with h2 | h2
      · rw [h2]
        simpa using hlvl
      · simpa using hlt e h2
    · intro e he
      rcases mem_mapInsert_strong _ _ _ e hsort he with h2 | h2
      · rw [h2]
        unfold sssLevelWF
        simp [mapInsert_lookup_self]
      · obtain ⟨hmem, hne⟩ := h2
        have hold := hent e hmem
        unfold sssLevelWF at hold ⊢
        cases e with
        | mk l b =>
          have hlne : l ≠ level := hne
          cases b with
          | true =>
            simp only [if_true] at hold ⊢
            simpa [mapInsert_lookup_ne _ _ _ l hlne] using hold
          | false =>
            simp only [Bool.false_eq_true, if_false] at hold ⊢
            simpa [mapInsert_lookup_ne _ _ _ l hlne] using hold
  · rw [if_neg hlvl] at h
    exact absurd h (by simp)
